import Mathlib

/-!
Verification of the Hybrid Result Fusion Engine
(`src/src/Services/search/hybrid_search.py`).

The Python module is shallowly embedded here:

* Python `float` arithmetic is idealised as exact rational arithmetic (ℚ).
  Because `Rat.add`/`Rat.mul`/… are `@[irreducible]` in this toolchain, the
  embedding performs its arithmetic through kernel-computable wrappers
  (`qadd`, `qsub`, `qmul`, `qdiv`, …) built on `mkRat`/`Rat.divInt`; each
  wrapper is proved equal to the corresponding field operation, so abstract
  reasoning happens over ordinary `+ - * /` while concrete runs reduce in the
  kernel.
* Python `dict` values are association lists with string keys (`PyDict`), with
  Python's assignment/merge semantics (`{**a, **b}`, `d[k] = v`, `d.update`)
  modelled by `assocSet`/`dictMerge` (update-in-place keeps the key's first
  position, new keys are appended — insertion order is preserved, as for
  Python dicts).
* `hash()` of a Python value is unspecified (seeded); it enters the model as
  an abstract parameter `pyHash : PyDict → Int`.  Likewise the iteration
  order of the Python `set` built in `_rank_weighted` is unspecified; it
  enters the model as a parameter `setOrder : List String → List String`,
  constrained in theorems to be a permutation.
* Exceptions (`TypeError` from unhashable values, `ValueError`/`TypeError`
  from `float(...)` on non-numeric data) are modelled with `Except PyErr`.
* `list.sort(key=..., reverse=True)` is Python's stable sort ordered by
  descending key.  Any stable sort computes the same output list, so the
  embedding uses a structurally recursive stable insertion sort
  (`sortByScoreDesc`), which the kernel can evaluate.
-/

/-- Python runtime errors raised by the modelled code paths. -/
inductive PyErr where
  | typeError
  | valueError
deriving DecidableEq

/-- A Python value, as far as the fusion engine inspects one.  `float`s are
idealised as exact rationals. -/
inductive PyVal where
  | none
  | bool (b : Bool)
  | int (n : Int)
  | float (q : ℚ)
  | str (s : String)
  | list (xs : List PyVal)
  | dict (xs : List (String × PyVal))

/-- A Python dict with string keys: an association list in insertion order,
keys unique (operations below preserve uniqueness, as Python does). -/
abbrev PyDict := List (String × PyVal)

instance {ε α : Type} [DecidableEq ε] [DecidableEq α] : DecidableEq (Except ε α) := by
  intro a b
  cases a <;> cases b
  case error.error e₁ e₂ =>
    exact if h : e₁ = e₂ then .isTrue (by rw [h]) else .isFalse (by simp [h])
  case error.ok e a => exact .isFalse (by simp)
  case ok.error a e => exact .isFalse (by simp)
  case ok.ok a₁ a₂ =>
    exact if h : a₁ = a₂ then .isTrue (by rw [h]) else .isFalse (by simp [h])

/-- Lookup in an association list: Python `d.get(k)` / `k in d`. -/
def assocGet {β : Type} (d : List (String × β)) (k : String) : Option β :=
  (d.find? (fun p => p.1 == k)).map (·.2)

/-- Python `d[k] = v`: if the key is present the value is replaced in place
(the key keeps its position); otherwise the pair is appended. -/
def assocSet {β : Type} (d : List (String × β)) (k : String) (v : β) : List (String × β) :=
  if d.any (fun p => p.1 == k) then d.map (fun p => if p.1 == k then (k, v) else p)
  else d ++ [(k, v)]

/-- Python `{**a, **b}` and `a.update(b)`: fold `b`'s pairs into `a`. -/
def dictMerge (a b : PyDict) : PyDict :=
  b.foldl (fun acc kv => assocSet acc kv.1 kv.2) a

/-- Python `str(v)`.  Only string ids are exercised by the theorems below;
the rendering of floats and containers is not faithful to CPython's `repr`
and no theorem depends on it. -/
def pyStr : PyVal → String
  | .str s => s
  | .int n => toString n
  | .bool b => if b then "True" else "False"
  | .float q => toString q.num ++ "/" ++ toString q.den
  | .none => "None"
  | .list _ => "<list>"
  | .dict _ => "<dict>"

/-- Whether a Python value is hashable: `str`/`int`/`float`/`bool`/`None`
are, `list`/`dict` are not.  `frozenset(d.items())` succeeds iff every value
of `d` is hashable (the keys are strings, always hashable). -/
def PyVal.hashable : PyVal → Bool
  | .list _ => false
  | .dict _ => false
  | _ => true

/-- Python `float(v)`.  `float` of a numeric value succeeds; `float(None)`,
`float([...])`, `float({...})` raise `TypeError`.  CPython parses numeric
strings (`float("1.5")`); string parsing is not modelled — the model raises
`ValueError` for every string, and no theorem below exercises a string-valued
score field. -/
def pyFloat : PyVal → Except PyErr ℚ
  | .int n => .ok (mkRat n 1)
  | .float q => .ok q
  | .bool b => .ok (if b then 1 else 0)
  | .str _ => .error .valueError
  | .none => .error .typeError
  | .list _ => .error .typeError
  | .dict _ => .error .typeError

/-- `_extract_es_score`: `float(result.get('_score', result.get('score', 0.0)))`. -/
def _extract_es_score (result : PyDict) : Except PyErr ℚ :=
  pyFloat (((assocGet result "_score").getD ((assocGet result "score").getD (.float 0))))

/-- `_extract_vector_distance`: `float(result.get('distance', 1.0))`. -/
def _extract_vector_distance (result : PyDict) : Except PyErr ℚ :=
  pyFloat ((assocGet result "distance").getD (.float 1))

/-- `_extract_result_id`: tries `'_id'`, then `'id'`, then falls back to
`str(hash(frozenset(result.items())))`.  Building the frozenset hashes every
item, so it raises `TypeError` when some value is unhashable; otherwise the
(seed-dependent) hash is supplied by the abstract `pyHash`. -/
def _extract_result_id (pyHash : PyDict → Int) (result : PyDict) : Except PyErr String :=
  match assocGet result "_id" with
  | some v => .ok (pyStr v)
  | Option.none =>
    match assocGet result "id" with
    | some v => .ok (pyStr v)
    | Option.none =>
      if result.all (fun kv => kv.2.hashable) then .ok (toString (pyHash result))
      else .error .typeError

/-! ### Kernel-computable rational arithmetic

The embedding's arithmetic wrappers.  Each is proved equal to the
corresponding field operation on ℚ; the wrappers exist only because the
toolchain's `Rat.add`/`Rat.mul`/`Rat.inv` are `@[irreducible]` and would
block kernel evaluation of concrete runs. -/

/-- Addition on ℚ, kernel-computable. -/
def qadd (a b : ℚ) : ℚ := mkRat (a.num * b.den + b.num * a.den) (a.den * b.den)

/-- Subtraction on ℚ, kernel-computable. -/
def qsub (a b : ℚ) : ℚ := mkRat (a.num * b.den - b.num * a.den) (a.den * b.den)

/-- Multiplication on ℚ, kernel-computable. -/
def qmul (a b : ℚ) : ℚ := mkRat (a.num * b.num) (a.den * b.den)

/-- Division on ℚ, kernel-computable (division by zero yields 0, as for `/`). -/
def qdiv (a b : ℚ) : ℚ := Rat.divInt (a.num * b.den) (a.den * b.num)

/-- Absolute value on ℚ, kernel-computable. -/
def qabs (a : ℚ) : ℚ := if a < 0 then -a else a

/-! ### Score normalizers (§ "Helper Functions" of the module) -/

/-- `min(scores)` for a nonempty Python list `s₀ :: rest`. -/
def listMin (s₀ : ℚ) (rest : List ℚ) : ℚ := rest.foldl min s₀

/-- `max(scores)` for a nonempty Python list `s₀ :: rest`. -/
def listMax (s₀ : ℚ) (rest : List ℚ) : ℚ := rest.foldl max s₀

/-- `_normalize_scores_minmax`: min-max scaling to [0, 1].
Mirrors the source: empty input → `[]`; single element → `[1.0]`;
`max - min < 1e-9` → `0.5` everywhere; otherwise `(s - min) / (max - min)`. -/
def _normalize_scores_minmax : List ℚ → List ℚ
  | [] => []
  | [_] => [1]
  | s₀ :: s₁ :: rest =>
    let scores := s₀ :: s₁ :: rest
    let min_score := listMin s₀ (s₁ :: rest)
    let max_score := listMax s₀ (s₁ :: rest)
    let score_range := qsub max_score min_score
    if score_range < mkRat 1 1000000000 then scores.map (fun _ => mkRat 1 2)
    else scores.map (fun s => qdiv (qsub s min_score) score_range)

/-- `sum(scores) / len(scores)` (population mean). -/
def meanOf (scores : List ℚ) : ℚ := qdiv (scores.foldl qadd 0) (mkRat scores.length 1)

/-- `sum((s - mean)**2 for s in scores) / len(scores)` (population variance). -/
def varOf (scores : List ℚ) : ℚ :=
  qdiv ((scores.map (fun s => qmul (qsub s (meanOf scores)) (qsub s (meanOf scores)))).foldl qadd 0)
    (mkRat scores.length 1)

/-- `_normalize_scores_standard`: z-score then sigmoid, idealised over ℝ
(the source computes `variance ** 0.5` and `math.exp` on floats).
Mirrors the source: empty input → `[]`; single element → `[1.0]`;
`std < 1e-9` → `0.5` everywhere; otherwise `1 / (1 + exp(-(s - mean)/std))`. -/
noncomputable def _normalize_scores_standard : List ℚ → List ℝ
  | [] => []
  | [_] => [1]
  | s₀ :: s₁ :: rest =>
    let scores := s₀ :: s₁ :: rest
    let mean_score := meanOf scores
    let std_dev : ℝ := Real.sqrt ((varOf scores : ℚ) : ℝ)
    if std_dev < ((mkRat 1 1000000000 : ℚ) : ℝ) then scores.map (fun _ => 1/2)
    else scores.map (fun s => 1 / (1 + Real.exp (-(((s : ℚ) - mean_score : ℚ) / std_dev))))

/-! ### Configuration (`HybridSearchConfig`) -/

/-- `method: Literal['weighted', 'rrf']`. -/
inductive FusionMethod where
  | weighted
  | rrf
deriving DecidableEq

/-- `normalize_method: Literal['minmax', 'standard']`. -/
inductive NormalizeMethod where
  | minmax
  | standard
deriving DecidableEq

/-- `HybridSearchConfig` dataclass with its field defaults
(0.7 / 0.3, weighted, rrf_k = 60, minmax, threshold 0.0, no cap). -/
structure HybridSearchConfig where
  semantic_weight : ℚ := mkRat 7 10
  keyword_weight : ℚ := mkRat 3 10
  method : FusionMethod := .weighted
  rrf_k : ℤ := 60
  normalize_method : NormalizeMethod := .minmax
  min_score_threshold : ℚ := 0
  max_results : Option ℕ := Option.none
deriving DecidableEq

/-- `HybridSearchConfig.__post_init__`: validation run at construction.
Raises `ValueError` exactly when a check fails, otherwise the dataclass
instance is left unchanged. -/
def HybridSearchConfig.post_init (c : HybridSearchConfig) : Except PyErr HybridSearchConfig :=
  if ¬ (0 ≤ c.semantic_weight ∧ c.semantic_weight ≤ 1) then .error .valueError
  else if ¬ (0 ≤ c.keyword_weight ∧ c.keyword_weight ≤ 1) then .error .valueError
  else if mkRat 1 1000000 < qabs (qsub (qadd c.semantic_weight c.keyword_weight) 1) then
    .error .valueError
  else if c.rrf_k < 1 then .error .valueError
  else if ¬ (0 ≤ c.min_score_threshold ∧ c.min_score_threshold ≤ 1) then .error .valueError
  else .ok c

/-- The zscore-sigmoid normalizer used *inside the fusion pipeline*.
The source's `_normalize_scores_standard` computes transcendental values with
float arithmetic; as executed it is *some* function on floats (a subset of
ℚ).  The pipeline definitions below therefore take the standard normalizer as
an explicit parameter `stdN : List ℚ → List ℚ`, and the pipeline theorems
quantify over it (constrained to be length-preserving, which the source
function is), so they cover the actual float implementation.  Its
real-number formula itself is verified separately via
`_normalize_scores_standard`. -/
def normFn (stdN : List ℚ → List ℚ) : NormalizeMethod → List ℚ → List ℚ
  | .minmax => _normalize_scores_minmax
  | .standard => stdN

/-! ### Fused results, stable sorting, truncation -/

/-- One output entry.  `data` is the result dict exactly as the source builds
it.  `rid` instruments the identifier under which the entry was merged (the
loop variable `result_id`); the single-source shortcut paths extract no ids,
so there it is `none`.  `score` mirrors the float stored under
`'hybrid_score'` (respectively `'rrf_score'`), which is the sort key. -/
structure Fused where
  rid : Option String
  score : ℚ
  data : PyDict

/-- Stable insertion of an entry into a list sorted by descending score: the
entry passes over strictly greater scores and stops at the first
less-or-equal one, so earlier-encountered entries with an equal score stay in
front. -/
def insertScoreDesc (e : Fused) : List Fused → List Fused
  | [] => [e]
  | f :: fs => if f.score ≤ e.score then e :: f :: fs else f :: insertScoreDesc e fs

/-- `combined.sort(key=lambda x: x[score_key], reverse=True)`: Python's sort
is stable, and every stable sort by the same key computes the same list, so
this structurally recursive stable insertion sort is extensionally the
source's sort. -/
def sortByScoreDesc : List Fused → List Fused
  | [] => []
  | e :: es => insertScoreDesc e (sortByScoreDesc es)

/-- `if config.max_results: combined = combined[:config.max_results]`.
`None` and `0` are falsy, so no truncation happens for them.  (A negative
cap — Python slicing from the end — is not modelled; the dataclass never
validates `max_results` and no claim exercises a negative value.) -/
def applyMaxResults (config : HybridSearchConfig) (l : List Fused) : List Fused :=
  match config.max_results with
  | some m => if m ≠ 0 then l.take m else l
  | Option.none => l

/-! ### `_rank_weighted` -/

/-- `es_data.get('es_norm_score', 0.0)` (and the `vector_norm_score`
analogue).  The key is always present with a float value — the loop that
built the lookup stored one — so the non-float fallback branches are
unreachable; Python would return the raw value there. -/
def getNormScore (d : PyDict) (k : String) : ℚ :=
  match assocGet d k with
  | some (.float q) => q
  | some _ => 0
  | Option.none => 0

/-- The lookup-building loop of `_rank_weighted`:
`for result, norm_score in zip(results, norm_scores):
   result_id = _extract_result_id(result)
   lookup[result_id] = {**result, tag: norm_score}`. -/
def buildLookup (pyHash : PyDict → Int) (tag : String) :
    List (PyDict × ℚ) → List (String × PyDict) → Except PyErr (List (String × PyDict))
  | [], acc => .ok acc
  | (result, norm_score) :: rest, acc => do
    let result_id ← _extract_result_id pyHash result
    buildLookup pyHash tag rest (assocSet acc result_id (assocSet result tag (.float norm_score)))

/-- `similarities = [max(0.0, 1.0 - d) for d in distances]`. -/
def simOf (d : ℚ) : ℚ := max 0 (qsub 1 d)

/-- The body of `_rank_weighted`'s combination loop for one `result_id`.
Returns `none` when the entry is skipped (absent from both lookups — the
logged-and-`continue` branch — or below `min_score_threshold`). -/
def combineOne (config : HybridSearchConfig) (es_lookup vector_lookup : List (String × PyDict))
    (result_id : String) : Option Fused :=
  let es_data := assocGet es_lookup result_id
  let vector_data := assocGet vector_lookup result_id
  let base? : Option PyDict :=
    match es_data, vector_data with
    | some e, some v => some (dictMerge e v)
    | some e, Option.none => some e
    | Option.none, some v => some v
    | Option.none, Option.none => Option.none
  match base? with
  | Option.none => Option.none
  | some base =>
    let es_score := match es_data with
      | some d => getNormScore d "es_norm_score"
      | Option.none => 0
    let vec_score := match vector_data with
      | some d => getNormScore d "vector_norm_score"
      | Option.none => 0
    let hybrid_score := qadd (qmul config.semantic_weight vec_score)
      (qmul config.keyword_weight es_score)
    let base := assocSet base "hybrid_score" (.float hybrid_score)
    let base := assocSet base "es_norm_score" (.float es_score)
    let base := assocSet base "vector_norm_score" (.float vec_score)
    let base := assocSet base "_hybrid_source" (.dict
      [("in_es", .bool (es_lookup.any (·.1 == result_id))),
       ("in_vector", .bool (vector_lookup.any (·.1 == result_id)))])
    if config.min_score_threshold ≤ hybrid_score then some ⟨some result_id, hybrid_score, base⟩
    else Option.none

/-- `_rank_weighted`.  `all_ids = set(es_lookup) | set(vector_lookup)` is a
Python set; its iteration order is hash-dependent and unspecified, so the
loop runs over `setOrder` applied to a canonical enumeration of that set. -/
def _rank_weighted (stdN : List ℚ → List ℚ) (setOrder : List String → List String)
    (pyHash : PyDict → Int) (es_results vector_results : List PyDict)
    (config : HybridSearchConfig) : Except PyErr (List Fused) := do
  let es_lookup ←
    if es_results.isEmpty then pure []
    else do
      let es_scores ← es_results.mapM _extract_es_score
      let norm_es_scores := normFn stdN config.normalize_method es_scores
      buildLookup pyHash "es_norm_score" (es_results.zip norm_es_scores) []
  let vector_lookup ←
    if vector_results.isEmpty then pure []
    else do
      let distances ← vector_results.mapM _extract_vector_distance
      let similarities := distances.map simOf
      let norm_sim_scores := normFn stdN config.normalize_method similarities
      buildLookup pyHash "vector_norm_score" (vector_results.zip norm_sim_scores) []
  let all_ids := setOrder (((es_lookup.map (·.1)) ++ (vector_lookup.map (·.1))).dedup)
  let combined := all_ids.filterMap (combineOne config es_lookup vector_lookup)
  let combined := sortByScoreDesc combined
  pure (applyMaxResults config combined)

/-! ### `_rank_rrf` -/

/-- `1.0 / (k + rank)`, kernel-computable. -/
def rrfTerm (k : ℤ) (rank : ℕ) : ℚ := Rat.divInt 1 (k + (rank : ℤ))

/-- One step of an RRF contribution loop (ES pass with `isVector := false`,
vector pass with `isVector := true`):
`rrf_scores[id] = rrf_scores.get(id, 0.0) + 1.0/(k + rank)`, and
`result_data[id] = {**result}` on first sight — the vector pass instead
merges (`result_data[id].update(result)`) when the id is already present. -/
def rrfStep (pyHash : PyDict → Int) (k : ℤ) (isVector : Bool)
    (acc : List (String × ℚ) × List (String × PyDict)) (entry : ℕ × PyDict) :
    Except PyErr (List (String × ℚ) × List (String × PyDict)) := do
  let result_id ← _extract_result_id pyHash entry.2
  let prev := (assocGet acc.1 result_id).getD 0
  let scores := assocSet acc.1 result_id (qadd prev (rrfTerm k entry.1))
  let data :=
    if acc.2.any (·.1 == result_id) then
      if isVector then acc.2.map (fun p => if p.1 == result_id then (p.1, dictMerge p.2 entry.2) else p)
      else acc.2
    else assocSet acc.2 result_id entry.2
  pure (scores, data)

/-- `_rank_rrf`.  Both accumulators are Python dicts, so iteration order is
their (deterministic) insertion order: ES results first, then vector-only
ids. -/
def _rank_rrf (pyHash : PyDict → Int) (es_results vector_results : List PyDict)
    (config : HybridSearchConfig) : Except PyErr (List Fused) := do
  let k := config.rrf_k
  let acc ← (List.enumFrom 1 es_results).foldlM (rrfStep pyHash k false) ([], [])
  let acc ← (List.enumFrom 1 vector_results).foldlM (rrfStep pyHash k true) acc
  let combined := acc.1.map (fun p =>
    let result := (assocGet acc.2 p.1).getD []
    let result := assocSet result "rrf_score" (.float p.2)
    let result := assocSet result "hybrid_score" (.float p.2)
    (⟨some p.1, p.2, result⟩ : Fused))
  let combined := sortByScoreDesc combined
  pure (applyMaxResults config combined)

/-! ### `hybrid_search` (the `fuse` entry point) -/

/-- `hybrid_search(query, es_results, vector_results, config=None)`.
`query` is used only for logging and has no effect.  Empty-input shortcuts
mirror the source exactly: both empty → `[]`; one side empty → min-max
normalize the other side alone (similarity conversion for the vector side),
attach `hybrid_score` plus the two norm-score fields, stable-sort descending
and truncate — no weights, no threshold, no method dispatch. -/
def hybrid_search (stdN : List ℚ → List ℚ) (setOrder : List String → List String)
    (pyHash : PyDict → Int) (query : String) (es_results vector_results : List PyDict)
    (config? : Option HybridSearchConfig := Option.none) : Except PyErr (List Fused) :=
  let config := config?.getD {}
  if es_results.isEmpty && vector_results.isEmpty then .ok []
  else if es_results.isEmpty then do
    let distances ← vector_results.mapM _extract_vector_distance
    let similarities := distances.map simOf
    let norm_scores := _normalize_scores_minmax similarities
    let results := (vector_results.zip norm_scores).map (fun rs =>
      let d := assocSet rs.1 "hybrid_score" (.float rs.2)
      let d := assocSet d "vector_norm_score" (.float rs.2)
      let d := assocSet d "es_norm_score" (.float 0)
      (⟨Option.none, rs.2, d⟩ : Fused))
    pure (applyMaxResults config (sortByScoreDesc results))
  else if vector_results.isEmpty then do
    let es_scores ← es_results.mapM _extract_es_score
    let norm_scores := _normalize_scores_minmax es_scores
    let results := (es_results.zip norm_scores).map (fun rs =>
      let d := assocSet rs.1 "hybrid_score" (.float rs.2)
      let d := assocSet d "es_norm_score" (.float rs.2)
      let d := assocSet d "vector_norm_score" (.float 0)
      (⟨Option.none, rs.2, d⟩ : Fused))
    pure (applyMaxResults config (sortByScoreDesc results))
  else if config.method = .rrf then _rank_rrf pyHash es_results vector_results config
  else _rank_weighted stdN setOrder pyHash es_results vector_results config

/-! ### Claim-side (specification) definitions -/

/-- The configuration invariants as the specification states them:
weights in [0,1], weights summing to 1 within 1e-6, `rrf_k ≥ 1`,
threshold in [0,1]. -/
def ConfigInvariants (c : HybridSearchConfig) : Prop :=
  (0 ≤ c.semantic_weight ∧ c.semantic_weight ≤ 1) ∧
  (0 ≤ c.keyword_weight ∧ c.keyword_weight ≤ 1) ∧
  |c.semantic_weight + c.keyword_weight - 1| ≤ mkRat 1 1000000 ∧
  1 ≤ c.rrf_k ∧
  (0 ≤ c.min_score_threshold ∧ c.min_score_threshold ≤ 1)

instance (c : HybridSearchConfig) : Decidable (ConfigInvariants c) := by
  rw [ConfigInvariants]; infer_instance

/-- The normalized score a source assigns to an id, `0.0` when the id is
absent from that source: the spec's lookup into the per-source normalized
scores.  `ids` and `norms` are positionally aligned. -/
def normScoreAt (ids : List String) (norms : List ℚ) (id : String) : ℚ :=
  (((ids.zip norms).find? (fun p => p.1 == id)).map (·.2)).getD 0

/-- The spec's Weighted formula for an id, over the *per-source* normalized
scores (vector distances first converted by `similarity = max(0, 1 - d)`,
each source normalized over its own result set alone, absence contributing
`0.0`):
`hybrid_score = semantic_weight * semantic_norm + keyword_weight * keyword_norm`. -/
def specWeightedScore (stdN : List ℚ → List ℚ) (c : HybridSearchConfig)
    (kIds : List String) (kScores : List ℚ) (vIds : List String) (vDists : List ℚ)
    (id : String) : ℚ :=
  c.semantic_weight * normScoreAt vIds (normFn stdN c.normalize_method (vDists.map simOf)) id +
  c.keyword_weight * normScoreAt kIds (normFn stdN c.normalize_method kScores) id

/-- The spec's RRF formula for an id:
`rrf_score(id) = Σ over sources containing id of 1/(k + rank_in_source(id))`,
rank being the 1-based position in the source's original input order. -/
def specRrfScore (k : ℤ) (kIds vIds : List String) (id : String) : ℚ :=
  (match kIds.indexOf? id with
   | some i => 1 / ((k : ℚ) + ((i : ℚ) + 1))
   | Option.none => 0) +
  (match vIds.indexOf? id with
   | some i => 1 / ((k : ℚ) + ((i : ℚ) + 1))
   | Option.none => 0)

/-- Pure mirror of `buildLookup` once every id extraction has succeeded. -/
def buildLookupPure (tag : String) :
    List String → List (PyDict × ℚ) → List (String × PyDict) → List (String × PyDict)
  | i :: is, (r, n) :: rest, acc =>
    buildLookupPure tag is rest (assocSet acc i (assocSet r tag (.float n)))
  | _, _, acc => acc


/-- The ES lookup that `_rank_weighted` builds, in pure form. -/
def esLookupOf (stdN : List ℚ → List ℚ) (config : HybridSearchConfig) (es : List PyDict)
    (kIds : List String) (kScores : List ℚ) : List (String × PyDict) :=
  buildLookupPure "es_norm_score" kIds (es.zip (normFn stdN config.normalize_method kScores)) []

/-- The vector lookup that `_rank_weighted` builds, in pure form. -/
def vecLookupOf (stdN : List ℚ → List ℚ) (config : HybridSearchConfig) (vec : List PyDict)
    (vIds : List String) (vDists : List ℚ) : List (String × PyDict) :=
  buildLookupPure "vector_norm_score" vIds
    (vec.zip (normFn stdN config.normalize_method (vDists.map simOf))) []


/-- Pure mirror of one `rrfStep` once the id extraction has succeeded. -/
def rrfStepPure (k : ℤ) (isVector : Bool) (acc : List (String × ℚ) × List (String × PyDict))
    (rank : ℕ) (rid : String) (result : PyDict) :
    List (String × ℚ) × List (String × PyDict) :=
  let prev := (assocGet acc.1 rid).getD 0
  let scores := assocSet acc.1 rid (qadd prev (rrfTerm k rank))
  let data :=
    if acc.2.any (·.1 == rid) then
      if isVector then acc.2.map (fun p => if p.1 == rid then (p.1, dictMerge p.2 result) else p)
      else acc.2
    else assocSet acc.2 rid result
  (scores, data)

/-- Pure mirror of an RRF contribution loop. -/
def rrfLoopPure (k : ℤ) (isVector : Bool) :
    ℕ → List String → List PyDict → (List (String × ℚ) × List (String × PyDict)) →
    List (String × ℚ) × List (String × PyDict)
  | rank, i :: is, d :: ds, acc =>
    rrfLoopPure k isVector (rank + 1) is ds (rrfStepPure k isVector acc rank i d)
  | _, _, _, acc => acc

/-- The accumulator state after both RRF contribution loops. -/
def rrfAccOf (k : ℤ) (kIds vIds : List String) (es vec : List PyDict) :
    List (String × ℚ) × List (String × PyDict) :=
  rrfLoopPure k true 1 vIds vec (rrfLoopPure k false 1 kIds es ([], []))

/-- The combined entries `_rank_rrf` builds from its accumulators. -/
def rrfCombined (acc : List (String × ℚ) × List (String × PyDict)) : List Fused :=
  acc.1.map (fun p =>
    let result := (assocGet acc.2 p.1).getD []
    let result := assocSet result "rrf_score" (.float p.2)
    let result := assocSet result "hybrid_score" (.float p.2)
    (⟨some p.1, p.2, result⟩ : Fused))

/-! ### Concrete inputs used by witnesses and counterexamples -/

/-- The identity as a stand-in for the zscore-sigmoid normalizer parameter. -/
def stdId : List ℚ → List ℚ := fun l => l

/-- The identity set-iteration order (one admissible Python set order). -/
def ordId : List String → List String := fun l => l

/-- The reversed set-iteration order (another admissible Python set order). -/
def ordRev : List String → List String := fun l => l.reverse

/-- A concrete stand-in for Python's seeded `hash`. -/
def hashZero : PyDict → Int := fun _ => 0

/-- Keyword results: a (score 1.0), b (score 2.0). -/
def esW : List PyDict := [[("id", .str "a"), ("score", .float (mkRat 1 1))],
                          [("id", .str "b"), ("score", .float (mkRat 2 1))]]

/-- Vector results: c (distance 0.5), d (distance 0.4). -/
def vecW : List PyDict := [[("id", .str "c"), ("distance", .float (mkRat 1 2))],
                           [("id", .str "d"), ("distance", .float (mkRat 2 5))]]

/-- Keyword results sharing ids with `vecM`: a (score 1.0), b (score 2.0). -/
def esM : List PyDict := [[("id", .str "a"), ("score", .float (mkRat 1 1))],
                          [("id", .str "b"), ("score", .float (mkRat 2 1))]]

/-- Vector results sharing ids with `esM`: a (distance 0.1), b (distance 0.3). -/
def vecM : List PyDict := [[("id", .str "a"), ("distance", .float (mkRat 1 10))],
                           [("id", .str "b"), ("distance", .float (mkRat 3 10))]]

/-- The spec's concrete lexical scenario: e1 (15.2), e2 (12.8), e3 (8.5). -/
def esSpec : List PyDict := [[("id", .str "e1"), ("score", .float (mkRat 152 10))],
                             [("id", .str "e2"), ("score", .float (mkRat 128 10))],
                             [("id", .str "e3"), ("score", .float (mkRat 85 10))]]

/-- The spec's concrete vector scenario: e2 (0.12), e4 (0.18), e5 (0.25). -/
def vecSpec : List PyDict := [[("id", .str "e2"), ("distance", .float (mkRat 12 100))],
                              [("id", .str "e4"), ("distance", .float (mkRat 18 100))],
                              [("id", .str "e5"), ("distance", .float (mkRat 25 100))]]

/-- `method=RRF, rrf_k=60`, other fields default. -/
def cfgRrf60 : HybridSearchConfig := { method := .rrf }

/-- Default config with `max_results = 1`. -/
def cfgCap1 : HybridSearchConfig := { max_results := some 1 }

/-- An id-less candidate carrying an unhashable (list-valued) attribute. -/
def esC7 : List PyDict := [[("foo", .list [])]]

/-- A well-formed vector candidate. -/
def vecC7 : List PyDict := [[("id", .str "v"), ("distance", .float (mkRat 1 2))]]


/-- Whether a candidate dict carries an explicit identifier key
(`'_id'` or `'id'`), so that `_extract_result_id` needs no hash fallback. -/
def hasIdKey (d : PyDict) : Bool :=
  (assocGet d "_id").isSome || (assocGet d "id").isSome

/-- Default config with `min_score_threshold = 0.9`. -/
def cfgThr09 : HybridSearchConfig := { min_score_threshold := mkRat 9 10 }


/-- RRF + z-score + high threshold config: differs from the default in every
field the single-source shortcut is claimed to ignore. -/
def cfgRrfStd : HybridSearchConfig :=
  { method := .rrf, normalize_method := .standard, min_score_threshold := mkRat 9 10 }


/-- Equal-weights config (`semantic_weight = keyword_weight = 0.5`). -/
def cfgHalf : HybridSearchConfig :=
  { semantic_weight := mkRat 1 2, keyword_weight := mkRat 1 2 }


/-! ### Bridge lemmas for the kernel-computable arithmetic -/

@[simp] theorem qadd_eq (a b : ℚ) : qadd a b = a + b := (Rat.add_def' a b).symm

@[simp] theorem qsub_eq (a b : ℚ) : qsub a b = a - b := (Rat.sub_def' a b).symm

@[simp] theorem qmul_eq (a b : ℚ) : qmul a b = a * b := by
  rw [qmul, Rat.mul_def, Rat.normalize_eq_mkRat]

@[simp] theorem qdiv_eq (a b : ℚ) : qdiv a b = a / b := by
  rw [qdiv, Rat.div_def']

@[simp] theorem qabs_eq (a : ℚ) : qabs a = |a| := by
  rw [qabs]; split
  · rw [abs_of_neg]; assumption
  · rw [abs_of_nonneg]; exact le_of_not_lt (by assumption)

theorem rrfTerm_eq (k : ℤ) (rank : ℕ) : rrfTerm k rank = 1 / ((k : ℚ) + (rank : ℚ)) := by
  rw [rrfTerm, Rat.divInt_eq_div]; push_cast; ring


/-! ### Claim C8 — configuration validation -/

/-- `__post_init__` characterized: it returns the config unchanged when the
invariants hold and raises `ValueError` otherwise. -/
theorem post_init_eq_ite (c : HybridSearchConfig) :
    HybridSearchConfig.post_init c =
      if ConfigInvariants c then .ok c else .error .valueError := by
  unfold HybridSearchConfig.post_init
  by_cases h1 : 0 ≤ c.semantic_weight ∧ c.semantic_weight ≤ 1
  · rw [if_neg (not_not_intro h1)]
    by_cases h2 : 0 ≤ c.keyword_weight ∧ c.keyword_weight ≤ 1
    · rw [if_neg (not_not_intro h2)]
      by_cases h3 : mkRat 1 1000000 < qabs (qsub (qadd c.semantic_weight c.keyword_weight) 1)
      · rw [if_pos h3, if_neg]
        intro hc
        rw [qabs_eq, qadd_eq, qsub_eq] at h3
        exact absurd hc.2.2.1 (not_le.mpr h3)
      · rw [if_neg h3]
        by_cases h4 : c.rrf_k < 1
        · rw [if_pos h4, if_neg]
          intro hc
          exact absurd hc.2.2.2.1 (not_le.mpr h4)
        · rw [if_neg h4]
          by_cases h5 : 0 ≤ c.min_score_threshold ∧ c.min_score_threshold ≤ 1
          · rw [if_neg (not_not_intro h5), if_pos]
            rw [qabs_eq, qadd_eq, qsub_eq] at h3
            exact ⟨h1, h2, not_lt.mp h3, not_lt.mp h4, h5⟩
          · rw [if_pos h5, if_neg (fun hc => h5 hc.2.2.2.2)]
    · rw [if_pos h2, if_neg (fun hc => h2 hc.2.1)]
  · rw [if_pos h1, if_neg (fun hc => h1 hc.1)]

/-- C8: `FusionConfig` construction raises iff some invariant is violated
(weights outside [0,1], weights not summing to 1 within 1e-6, `rrf_k < 1`,
threshold outside [0,1]), synchronously at construction, and a valid config
is returned with its field values unchanged — nothing is silently
corrected. -/
theorem claim_C8_config_validation (c : HybridSearchConfig) :
    ((∃ e, HybridSearchConfig.post_init c = .error e) ↔ ¬ ConfigInvariants c) ∧
    (∀ c', HybridSearchConfig.post_init c = .ok c' → c' = c) := by
  rw [post_init_eq_ite]
  by_cases h : ConfigInvariants c
  · rw [if_pos h]
    exact ⟨⟨fun he => absurd he.choose_spec (by simp), fun hc => absurd h hc⟩,
      fun c' hh => by cases hh; rfl⟩
  · rw [if_neg h]
    exact ⟨⟨fun _ => h, fun _ => ⟨.valueError, rfl⟩⟩, fun c' hh => by cases hh⟩

/-- C8 witness: the default configuration satisfies the invariants and is
constructed unchanged. -/
theorem claim_C8_config_validation_witness :
    ((∃ e, HybridSearchConfig.post_init {} = .error e) ↔ ¬ ConfigInvariants {}) ∧
    (∀ c', HybridSearchConfig.post_init {} = .ok c' → c' = ({} : HybridSearchConfig)) :=
  claim_C8_config_validation {}

/-! ### Claim C6 — normalizer degenerate-input policy -/

theorem mkRat_cast_div (n : ℤ) (d : ℕ) : (mkRat n d : ℚ) = (n : ℚ) / (d : ℚ) := by
  rw [Rat.mkRat_eq_divInt, Rat.divInt_eq_div]
  norm_num

theorem foldl_min_le_acc (l : List ℚ) : ∀ a : ℚ, l.foldl min a ≤ a := by
  induction l with
  | nil => intro a; simp
  | cons x xs ih => intro a; exact le_trans (ih (min a x)) (min_le_left a x)

theorem foldl_min_le_mem (l : List ℚ) : ∀ a s : ℚ, s ∈ l → l.foldl min a ≤ s := by
  induction l with
  | nil => intro a s hs; cases hs
  | cons x xs ih =>
    intro a s hs
    rcases List.mem_cons.mp hs with h | h
    · subst h; exact le_trans (foldl_min_le_acc xs (min a s)) (min_le_right a s)
    · exact ih (min a x) s h

theorem le_foldl_max_acc (l : List ℚ) : ∀ a : ℚ, a ≤ l.foldl max a := by
  induction l with
  | nil => intro a; simp
  | cons x xs ih => intro a; exact le_trans (le_max_left a x) (ih (max a x))

theorem mem_le_foldl_max (l : List ℚ) : ∀ a s : ℚ, s ∈ l → s ≤ l.foldl max a := by
  induction l with
  | nil => intro a s hs; cases hs
  | cons x xs ih =>
    intro a s hs
    rcases List.mem_cons.mp hs with h | h
    · subst h; exact le_trans (le_max_right a s) (le_foldl_max_acc xs (max a s))
    · exact ih (max a x) s h

/-- `min(scores) ≤ s` for every member of a nonempty score list. -/
theorem listMin_le (s₀ : ℚ) (rest : List ℚ) (s : ℚ) (hs : s ∈ s₀ :: rest) :
    listMin s₀ rest ≤ s := by
  rcases List.mem_cons.mp hs with h | h
  · subst h; exact foldl_min_le_acc rest s
  · exact foldl_min_le_mem rest s₀ s h

/-- `s ≤ max(scores)` for every member of a nonempty score list. -/
theorem le_listMax (s₀ : ℚ) (rest : List ℚ) (s : ℚ) (hs : s ∈ s₀ :: rest) :
    s ≤ listMax s₀ rest := by
  rcases List.mem_cons.mp hs with h | h
  · subst h; exact le_foldl_max_acc rest s
  · exact mem_le_foldl_max rest s₀ s h

/-- C6, amended: MinMax returns `[1.0]` on one-element input and `0.5`
everywhere when `max − min < 1e-9` on longer input; ZScoreSigmoid likewise
returns `[1.0]` on one-element input (the same early-exit as MinMax — *not*
`0.5` as the original claim says) and `0.5` everywhere when the population
standard deviation of a length-≥2 input is `< 1e-9`; both normalizers always
return a same-length sequence of values in `[0, 1]`. -/
theorem claim_C6_normalizer_edge_cases :
    (∀ x : ℚ, _normalize_scores_minmax [x] = [1]) ∧
    (∀ s₀ s₁ rest, listMax s₀ (s₁ :: rest) - listMin s₀ (s₁ :: rest) < mkRat 1 1000000000 →
      _normalize_scores_minmax (s₀ :: s₁ :: rest) = (s₀ :: s₁ :: rest).map (fun _ => mkRat 1 2)) ∧
    (∀ x : ℚ, _normalize_scores_standard [x] = [1]) ∧
    (∀ s₀ s₁ rest, Real.sqrt ((varOf (s₀ :: s₁ :: rest) : ℚ) : ℝ) < ((mkRat 1 1000000000 : ℚ) : ℝ) →
      _normalize_scores_standard (s₀ :: s₁ :: rest) = (s₀ :: s₁ :: rest).map (fun _ => 1/2)) ∧
    (∀ l : List ℚ, (_normalize_scores_minmax l).length = l.length ∧
      ∀ v ∈ _normalize_scores_minmax l, 0 ≤ v ∧ v ≤ 1) ∧
    (∀ l : List ℚ, (_normalize_scores_standard l).length = l.length ∧
      ∀ v ∈ _normalize_scores_standard l, 0 ≤ v ∧ v ≤ 1) := by
  refine ⟨fun x => rfl, ?_, fun x => rfl, ?_, ?_, ?_⟩
  · intro s₀ s₁ rest h
    rw [_normalize_scores_minmax]
    rw [if_pos]
    rw [qsub_eq]
    exact h
  · intro s₀ s₁ rest h
    rw [_normalize_scores_standard]
    rw [if_pos h]
  · intro l
    match l with
    | [] => exact ⟨rfl, by intro v hv; cases hv⟩
    | [x] =>
      refine ⟨rfl, ?_⟩
      intro v hv
      rw [_normalize_scores_minmax] at hv
      rcases List.mem_singleton.mp hv with rfl
      norm_num
    | s₀ :: s₁ :: rest =>
      rw [_normalize_scores_minmax]
      split
      · refine ⟨by simp, ?_⟩
        intro v hv
        rcases List.mem_map.mp hv with ⟨s, _, rfl⟩
        rw [mkRat_cast_div]
        norm_num
      · next hrange =>
        rw [qsub_eq] at hrange
        push_neg at hrange
        rw [mkRat_cast_div] at hrange
        have hpos : 0 < listMax s₀ (s₁ :: rest) - listMin s₀ (s₁ :: rest) :=
          lt_of_lt_of_le (by norm_num) hrange
        refine ⟨by simp, ?_⟩
        intro v hv
        rcases List.mem_map.mp hv with ⟨s, hs, rfl⟩
        rw [qdiv_eq, qsub_eq, qsub_eq]
        constructor
        · apply div_nonneg _ (le_of_lt hpos)
          have := listMin_le s₀ (s₁ :: rest) s hs
          linarith
        · rw [div_le_one hpos]
          have := le_listMax s₀ (s₁ :: rest) s hs
          linarith
  · intro l
    match l with
    | [] => exact ⟨rfl, by intro v hv; cases hv⟩
    | [x] =>
      refine ⟨rfl, ?_⟩
      intro v hv
      rw [_normalize_scores_standard] at hv
      rcases List.mem_singleton.mp hv with rfl
      norm_num
    | s₀ :: s₁ :: rest =>
      rw [_normalize_scores_standard]
      split
      · refine ⟨by simp, ?_⟩
        intro v hv
        rcases List.mem_map.mp hv with ⟨s, _, rfl⟩
        norm_num
      · refine ⟨by simp, ?_⟩
        intro v hv
        rcases List.mem_map.mp hv with ⟨s, hs, rfl⟩
        have hexp : 0 < Real.exp (-((((s : ℚ) - meanOf (s₀ :: s₁ :: rest) : ℚ)) /
            Real.sqrt ((varOf (s₀ :: s₁ :: rest) : ℚ) : ℝ))) := Real.exp_pos _
        constructor
        · positivity
        · rw [div_le_one (by positivity)]
          linarith

/-- C6 counterexample: the claim says ZScoreSigmoid returns 0.5 on every
sequence with std < 1e-9, "which includes every one-element sequence"; but
the source's early-exit returns `[1.0]` for a one-element input. -/
theorem claim_C6_counterexample : _normalize_scores_standard [5] ≠ [(1:ℝ)/2] := by
  have h : _normalize_scores_standard [5] = [1] := rfl
  rw [h]
  intro hc
  have h1 : (1 : ℝ) = 1/2 := by injection hc
  norm_num at h1

/-- C6 witness: the theorem applied at concrete inputs. -/
theorem claim_C6_normalizer_edge_cases_witness :
    _normalize_scores_minmax [3] = [1] ∧
    _normalize_scores_minmax [2, 2] = [mkRat 1 2, mkRat 1 2] ∧
    _normalize_scores_standard [7] = [1] ∧
    _normalize_scores_standard [2, 2] = [1/2, 1/2] ∧
    (∀ v ∈ _normalize_scores_minmax [0, 1], 0 ≤ v ∧ v ≤ 1) := by
  refine ⟨claim_C6_normalizer_edge_cases.1 3, ?_, claim_C6_normalizer_edge_cases.2.2.1 7, ?_,
    (claim_C6_normalizer_edge_cases.2.2.2.2.1 [0, 1]).2⟩
  · exact claim_C6_normalizer_edge_cases.2.1 2 2 []
      (by rw [listMax, listMin, mkRat_cast_div]; norm_num)
  · exact claim_C6_normalizer_edge_cases.2.2.2.1 2 2 []
      (by
        have hv : varOf [2, 2] = 0 := by
          rw [varOf, meanOf]
          simp only [qadd_eq, qsub_eq, qmul_eq, qdiv_eq, List.foldl, List.map, mkRat_cast_div,
            List.length_cons, List.length_nil]
          norm_num
        rw [hv]
        rw [Rat.cast_zero, Real.sqrt_zero, mkRat_cast_div]
        norm_num)

/-! ### Infrastructure lemmas: `Except`, `mapM`, association lists, sorting -/

theorem except_bind_ok {ε α β : Type} (x : Except ε α) (f : α → Except ε β) (b : β) :
    (x >>= f) = .ok b ↔ ∃ a, x = .ok a ∧ f a = .ok b := by
  cases x with
  | error e => simp [Bind.bind, Except.bind]
  | ok a => simp [Bind.bind, Except.bind]

theorem except_pure_eq_ok {ε α : Type} (a : α) : (pure a : Except ε α) = .ok a := rfl

theorem mapM_nil_ok {ε α β : Type} (f : α → Except ε β) : ([] : List α).mapM f = .ok [] := rfl

theorem mapM_cons_ok {ε α β : Type} (f : α → Except ε β) (x : α) (xs : List α) (ys : List β) :
    (x :: xs).mapM f = .ok ys ↔
      ∃ y ys', f x = .ok y ∧ xs.mapM f = .ok ys' ∧ ys = y :: ys' := by
  rw [List.mapM_cons]
  constructor
  · intro h
    rcases (except_bind_ok _ _ _).mp h with ⟨y, hy, h2⟩
    rcases (except_bind_ok _ _ _).mp h2 with ⟨ys', hys', h3⟩
    exact ⟨y, ys', hy, hys', by cases h3; rfl⟩
  · rintro ⟨y, ys', hy, hys', rfl⟩
    rw [hy, hys']
    rfl

theorem mapM_ok_length {ε α β : Type} (f : α → Except ε β) :
    ∀ (xs : List α) (ys : List β), xs.mapM f = .ok ys → ys.length = xs.length := by
  intro xs
  induction xs with
  | nil => intro ys h; rw [mapM_nil_ok] at h; cases h; rfl
  | cons x xs ih =>
    intro ys h
    rcases (mapM_cons_ok _ _ _ _).mp h with ⟨y, ys', _, hys', rfl⟩
    simp [ih ys' hys']

theorem mapM_ok_forall {ε α β : Type} (f : α → Except ε β) :
    ∀ (xs : List α), (∀ x ∈ xs, ∃ y, f x = .ok y) → ∃ ys, xs.mapM f = .ok ys := by
  intro xs
  induction xs with
  | nil => intro _; exact ⟨[], rfl⟩
  | cons x xs ih =>
    intro h
    rcases h x (List.mem_cons_self x xs) with ⟨y, hy⟩
    rcases ih (fun z hz => h z (List.mem_cons_of_mem x hz)) with ⟨ys, hys⟩
    exact ⟨y :: ys, (mapM_cons_ok _ _ _ _).mpr ⟨y, ys, hy, hys, rfl⟩⟩

theorem string_beq_iff (a b : String) : (a == b) = true ↔ a = b := beq_iff_eq

theorem assocGet_nil {β : Type} (k : String) : assocGet ([] : List (String × β)) k = Option.none := rfl

theorem assocGet_cons {β : Type} (p : String × β) (d : List (String × β)) (k : String) :
    assocGet (p :: d) k = if p.1 = k then some p.2 else assocGet d k := by
  rw [assocGet, List.find?_cons]
  split
  · next h => rw [if_pos (by simpa using h)]; rfl
  · next h => rw [if_neg (by simpa using h)]; rfl

theorem assocGet_isSome_iff_any {β : Type} (d : List (String × β)) (k : String) :
    (assocGet d k).isSome ↔ d.any (fun p => p.1 == k) := by
  induction d with
  | nil => simp [assocGet_nil]
  | cons p ps ih =>
    rw [assocGet_cons, List.any_cons]
    split
    · next h => simp [h]
    · next h => simpa [h] using ih

theorem assocGet_eq_none_iff_not_any {β : Type} (d : List (String × β)) (k : String) :
    assocGet d k = Option.none ↔ ¬ (d.any (fun p => p.1 == k) = true) := by
  rw [← assocGet_isSome_iff_any, Option.isSome_iff_ne_none]
  tauto

theorem any_key_iff_mem_keys {β : Type} (d : List (String × β)) (k : String) :
    d.any (fun p => p.1 == k) = true ↔ k ∈ d.map (·.1) := by
  rw [List.any_eq_true]
  constructor
  · rintro ⟨p, hp, hk⟩
    have hpk : p.1 = k := beq_iff_eq.mp hk
    exact hpk ▸ List.mem_map.mpr ⟨p, hp, rfl⟩
  · intro h
    rcases List.mem_map.mp h with ⟨p, hp, hk⟩
    exact ⟨p, hp, beq_iff_eq.mpr hk⟩

theorem find?_map_replace_self {β : Type} (k : String) (v : β) :
    ∀ d : List (String × β), d.any (fun p => p.1 == k) = true →
      assocGet (d.map (fun p => if p.1 == k then (k, v) else p)) k = some v := by
  intro d
  induction d with
  | nil => intro h; simp at h
  | cons p ps ih =>
    intro hany
    rw [List.map_cons]
    by_cases hp : p.1 = k
    · rw [if_pos (show (p.1 == k) = true from beq_iff_eq.mpr hp), assocGet_cons, if_pos rfl]
    · rw [if_neg (show ¬ (p.1 == k) = true from by simpa using hp), assocGet_cons, if_neg hp]
      apply ih
      rcases List.any_eq_true.mp hany with ⟨q, hq, hqk⟩
      rcases List.mem_cons.mp hq with rfl | hq'
      · exact absurd (beq_iff_eq.mp hqk) hp
      · exact List.any_eq_true.mpr ⟨q, hq', hqk⟩

theorem find?_map_replace_ne {β : Type} (k k' : String) (v : β) (hne : k' ≠ k) :
    ∀ d : List (String × β),
      assocGet (d.map (fun p => if p.1 == k then (k, v) else p)) k' = assocGet d k' := by
  intro d
  induction d with
  | nil => rfl
  | cons p ps ih =>
    rw [List.map_cons]
    by_cases hp : p.1 = k
    · rw [if_pos (show (p.1 == k) = true from beq_iff_eq.mpr hp), assocGet_cons, assocGet_cons,
        if_neg (show ((k, v).1 = k') → False from fun h => hne h.symm),
        if_neg (show (p.1 = k') → False from fun h => hne ((hp.symm.trans h).symm)), ih]
    · rw [if_neg (show ¬ (p.1 == k) = true from by simpa using hp), assocGet_cons, assocGet_cons]
      split
      · rfl
      · exact ih

theorem assocGet_append_single_self {β : Type} (k : String) (v : β) :
    ∀ d : List (String × β), ¬ (d.any (fun p => p.1 == k) = true) →
      assocGet (d ++ [(k, v)]) k = some v := by
  intro d
  induction d with
  | nil => intro _; rw [List.nil_append, assocGet_cons, if_pos rfl]
  | cons p ps ih =>
    intro hany
    rw [List.cons_append, assocGet_cons]
    have hp : p.1 ≠ k := by
      intro h
      exact hany (List.any_eq_true.mpr ⟨p, List.mem_cons_self p ps, beq_iff_eq.mpr h⟩)
    rw [if_neg hp]
    exact ih (fun h => hany (by
      rcases List.any_eq_true.mp h with ⟨q, hq, hqk⟩
      exact List.any_eq_true.mpr ⟨q, List.mem_cons_of_mem p hq, hqk⟩))

theorem assocGet_append_single_ne {β : Type} (k k' : String) (v : β) (hne : k' ≠ k) :
    ∀ d : List (String × β), assocGet (d ++ [(k, v)]) k' = assocGet d k' := by
  intro d
  induction d with
  | nil => rw [List.nil_append, assocGet_cons, if_neg (show ((k, v).1 = k') → False from fun h => hne h.symm)]
  | cons p ps ih =>
    rw [List.cons_append, assocGet_cons, assocGet_cons]
    split
    · rfl
    · exact ih

theorem assocGet_assocSet_self {β : Type} (d : List (String × β)) (k : String) (v : β) :
    assocGet (assocSet d k v) k = some v := by
  rw [assocSet]
  split
  · next hany => exact find?_map_replace_self k v d hany
  · next hany => exact assocGet_append_single_self k v d hany

theorem assocGet_assocSet_ne {β : Type} (d : List (String × β)) (k k' : String) (v : β)
    (hne : k' ≠ k) : assocGet (assocSet d k v) k' = assocGet d k' := by
  rw [assocSet]
  split
  · exact find?_map_replace_ne k k' v hne d
  · exact assocGet_append_single_ne k k' v hne d

theorem keys_assocSet {β : Type} (d : List (String × β)) (k : String) (v : β) :
    (assocSet d k v).map (·.1) =
      if d.any (fun p => p.1 == k) then d.map (·.1) else d.map (·.1) ++ [k] := by
  rw [assocSet]
  split
  · next h =>
    rw [List.map_map]
    apply List.map_congr_left
    intro p _
    by_cases hp : p.1 = k
    · simp [hp]
    · simp only [Function.comp_apply,
        if_neg (show ¬ (p.1 == k) = true from by simpa using hp)]
  · next h =>
    simp

theorem getNormScore_assocSet_self (d : PyDict) (k : String) (q : ℚ) :
    getNormScore (assocSet d k (.float q)) k = q := by
  rw [getNormScore, assocGet_assocSet_self]

theorem insertScoreDesc_perm (e : Fused) :
    ∀ l : List Fused, (insertScoreDesc e l).Perm (e :: l) := by
  intro l
  induction l with
  | nil => exact List.Perm.refl _
  | cons f fs ih =>
    rw [insertScoreDesc]
    split
    · exact List.Perm.refl _
    · exact (ih.cons f).trans (List.Perm.swap e f fs)

theorem sortByScoreDesc_perm : ∀ l : List Fused, (sortByScoreDesc l).Perm l := by
  intro l
  induction l with
  | nil => exact List.Perm.refl _
  | cons e es ih => exact (insertScoreDesc_perm e (sortByScoreDesc es)).trans (ih.cons e)

theorem mem_insertScoreDesc (e a : Fused) (l : List Fused) :
    a ∈ insertScoreDesc e l ↔ a = e ∨ a ∈ l := by
  rw [(insertScoreDesc_perm e l).mem_iff, List.mem_cons]

theorem mem_sortByScoreDesc (a : Fused) (l : List Fused) :
    a ∈ sortByScoreDesc l ↔ a ∈ l := (sortByScoreDesc_perm l).mem_iff

theorem insertScoreDesc_pairwise (e : Fused) :
    ∀ l : List Fused, l.Pairwise (fun a b => b.score ≤ a.score) →
      (insertScoreDesc e l).Pairwise (fun a b => b.score ≤ a.score) := by
  intro l
  induction l with
  | nil => intro _; simp [insertScoreDesc]
  | cons f fs ih =>
    intro hp
    rw [insertScoreDesc]
    split
    · next hle =>
      refine List.Pairwise.cons ?_ hp
      intro b hb
      rcases List.mem_cons.mp hb with rfl | hb'
      · exact hle
      · exact le_trans (List.rel_of_pairwise_cons hp hb') hle
    · next hgt =>
      refine List.Pairwise.cons ?_ (ih (List.Pairwise.of_cons hp))
      intro b hb
      rcases (mem_insertScoreDesc e b fs).mp hb with rfl | hb'
      · exact le_of_lt (not_le.mp hgt)
      · exact List.rel_of_pairwise_cons hp hb'

theorem sortByScoreDesc_pairwise :
    ∀ l : List Fused, (sortByScoreDesc l).Pairwise (fun a b => b.score ≤ a.score) := by
  intro l
  induction l with
  | nil => exact List.Pairwise.nil
  | cons e es ih => exact insertScoreDesc_pairwise e (sortByScoreDesc es) ih

theorem minmax_length (l : List ℚ) : (_normalize_scores_minmax l).length = l.length := by
  match l with
  | [] => rfl
  | [_] => rfl
  | s₀ :: s₁ :: rest =>
    rw [_normalize_scores_minmax]
    split <;> simp

theorem normFn_length (stdN : List ℚ → List ℚ) (hstd : ∀ l, (stdN l).length = l.length)
    (m : NormalizeMethod) (l : List ℚ) : (normFn stdN m l).length = l.length := by
  cases m with
  | minmax => exact minmax_length l
  | standard => exact hstd l

/-! ### Characterizing the lookup-building loop of `_rank_weighted` -/

@[simp] theorem except_ok_bind {ε α β : Type} (a : α) (f : α → Except ε β) :
    (Except.ok a >>= f) = f a := rfl

@[simp] theorem except_error_bind {ε α β : Type} (e : ε) (f : α → Except ε β) :
    ((Except.error e : Except ε α) >>= f) = Except.error e := rfl

theorem buildLookup_eq_pure (pyHash : PyDict → Int) (tag : String) :
    ∀ (rs : List PyDict) (ns : List ℚ) (ids : List String) (acc : List (String × PyDict)),
      rs.mapM (_extract_result_id pyHash) = .ok ids →
      buildLookup pyHash tag (rs.zip ns) acc = .ok (buildLookupPure tag ids (rs.zip ns) acc) := by
  intro rs
  induction rs with
  | nil =>
    intro ns ids acc h
    rw [mapM_nil_ok] at h
    cases h
    rfl
  | cons r rs' ih =>
    intro ns ids acc h
    rcases (mapM_cons_ok _ _ _ _).mp h with ⟨i, ids', hi, hrest, rfl⟩
    cases ns with
    | nil => rfl
    | cons n ns' =>
      rw [List.zip_cons_cons, buildLookup, hi, except_ok_bind, buildLookupPure]
      exact ih ns' ids' _ hrest

theorem assocGet_buildLookupPure (tag : String) :
    ∀ (ids : List String) (rns : List (PyDict × ℚ)) (acc : List (String × PyDict)),
      ids.Nodup → ∀ x : String,
      assocGet (buildLookupPure tag ids rns acc) x =
        (match (ids.zip rns).find? (fun p => p.1 == x) with
         | some p => some (assocSet p.2.1 tag (.float p.2.2))
         | Option.none => assocGet acc x) := by
  intro ids
  induction ids with
  | nil => intro rns acc _ x; cases rns <;> rfl
  | cons i is ih =>
    intro rns acc hnd x
    cases rns with
    | nil => rfl
    | cons rn rest =>
      obtain ⟨r, n⟩ := rn
      rw [List.zip_cons_cons, buildLookupPure]
      rw [ih rest _ (List.Nodup.of_cons hnd) x]
      by_cases hx : i = x
      · have hb : ((i, r, n).1 == x) = true := beq_iff_eq.mpr hx
        simp only [List.find?_cons, hb]
        have hnone : (is.zip rest).find? (fun p => p.1 == x) = Option.none := by
          apply List.find?_eq_none.mpr
          intro p hp hbe
          have hmem : p.1 ∈ is := (List.of_mem_zip hp).1
          rw [beq_iff_eq.mp hbe, ← hx] at hmem
          exact (List.nodup_cons.mp hnd).1 hmem
        rw [hnone]
        subst hx
        exact assocGet_assocSet_self acc i _
      · have hb : ((i, r, n).1 == x) = false := beq_eq_false_iff_ne.mpr hx
        simp only [List.find?_cons, hb]
        rcases hfind : (is.zip rest).find? (fun p => p.1 == x) with _ | p
        · rw [hfind]
          exact assocGet_assocSet_ne acc i x _ (fun h => hx h.symm)
        · rw [hfind]

theorem keys_buildLookupPure (tag : String) :
    ∀ (ids : List String) (rns : List (PyDict × ℚ)) (acc : List (String × PyDict)),
      ids.Nodup → (∀ i ∈ ids, ¬ (acc.any (fun p => p.1 == i) = true)) →
      (buildLookupPure tag ids rns acc).map (·.1) = acc.map (·.1) ++ ids.take rns.length := by
  intro ids
  induction ids with
  | nil => intro rns acc _ _; cases rns <;> simp [buildLookupPure]
  | cons i is ih =>
    intro rns acc hnd hdisj
    cases rns with
    | nil => simp [buildLookupPure]
    | cons rn rest =>
      obtain ⟨r, n⟩ := rn
      rw [buildLookupPure]
      have hkeys : (assocSet acc i (assocSet r tag (.float n))).map (·.1) =
          acc.map (·.1) ++ [i] := by
        rw [keys_assocSet, if_neg (hdisj i (List.mem_cons_self i is))]
      rw [ih rest _ (List.Nodup.of_cons hnd) ?_]
      · rw [hkeys, List.length_cons, List.take_succ_cons, List.append_assoc, List.singleton_append]
      · intro j hj hja
        rw [any_key_iff_mem_keys, hkeys] at hja
        rcases List.mem_append.mp hja with hmem | hmem
        · exact hdisj j (List.mem_cons_of_mem i hj) ((any_key_iff_mem_keys acc j).mpr hmem)
        · rw [List.mem_singleton] at hmem
          exact (List.nodup_cons.mp hnd).1 (hmem ▸ hj)

/-! ### Aligning the lookup contents with the spec-side normalized scores -/

theorem find?_zip_align (x : String) :
    ∀ (ids : List String) (rs : List PyDict) (ns : List ℚ), rs.length = ns.length →
      (match (ids.zip (rs.zip ns)).find? (fun p => p.1 == x) with
       | some p => some p.2.2
       | Option.none => Option.none) =
      ((ids.zip ns).find? (fun p => p.1 == x)).map (·.2) := by
  intro ids
  induction ids with
  | nil => intro rs ns _; rfl
  | cons i is ih =>
    intro rs ns hlen
    cases rs with
    | nil =>
      cases ns with
      | nil => rfl
      | cons n ns' => cases hlen
    | cons r rs' =>
      cases ns with
      | nil => cases hlen
      | cons n ns' =>
        rw [List.zip_cons_cons, List.zip_cons_cons, List.zip_cons_cons]
        by_cases hx : i = x
        · have hb : ((i, r, n).1 == x) = true := beq_iff_eq.mpr hx
          have hb' : ((i, n).1 == x) = true := beq_iff_eq.mpr hx
          simp only [List.find?_cons, hb, hb']
          rfl
        · have hb : ((i, r, n).1 == x) = false := beq_eq_false_iff_ne.mpr hx
          have hb' : ((i, n).1 == x) = false := beq_eq_false_iff_ne.mpr hx
          simp only [List.find?_cons, hb, hb']
          exact ih rs' ns' (by simpa using hlen)

theorem find?_zip_none_iff {β : Type} (x : String) :
    ∀ (ids : List String) (ns : List β), ids.length ≤ ns.length →
      ((ids.zip ns).find? (fun p => p.1 == x) = Option.none ↔ x ∉ ids) := by
  intro ids
  induction ids with
  | nil => intro ns _; simp
  | cons i is ih =>
    intro ns hlen
    cases ns with
    | nil => simp at hlen
    | cons n ns' =>
      rw [List.zip_cons_cons]
      by_cases hx : i = x
      · have hb : ((i, n).1 == x) = true := beq_iff_eq.mpr hx
        simp only [List.find?_cons, hb]
        constructor
        · intro h; cases h
        · intro h; exact absurd (hx ▸ List.mem_cons_self i is) h
      · have hb : ((i, n).1 == x) = false := beq_eq_false_iff_ne.mpr hx
        simp only [List.find?_cons, hb]
        rw [ih ns' (by simpa using Nat.le_of_succ_le_succ hlen)]
        constructor
        · intro h hmem
          rcases List.mem_cons.mp hmem with rfl | hmem'
          · exact hx rfl
          · exact h hmem'
        · intro h hmem
          exact h (List.mem_cons_of_mem i hmem)

/-- When the id is absent from a source, the spec-side normalized score is 0. -/
theorem normScoreAt_not_mem (ids : List String) (ns : List ℚ) (x : String)
    (hlen : ids.length ≤ ns.length) (hx : x ∉ ids) : normScoreAt ids ns x = 0 := by
  rw [normScoreAt, (find?_zip_none_iff x ids ns hlen).mpr hx]
  rfl

/-! ### Characterizing `combineOne` -/

/-- The keyword (resp. semantic) normalized score as `_rank_weighted`'s loop
reads it back from a lookup, equals the spec-side `normScoreAt`. -/
theorem lookup_score_eq_normScoreAt (tag : String) (ids : List String) (rs : List PyDict)
    (ns : List ℚ) (hnd : ids.Nodup) (hlen : rs.length = ns.length) (x : String) :
    (match assocGet (buildLookupPure tag ids (rs.zip ns) []) x with
     | some d => getNormScore d tag
     | Option.none => 0) = normScoreAt ids ns x := by
  rw [assocGet_buildLookupPure tag ids _ [] hnd x]
  have halign := find?_zip_align x ids rs ns hlen
  rcases hfind : (ids.zip (rs.zip ns)).find? (fun p => p.1 == x) with _ | p
  · simp only [hfind, assocGet_nil] at halign ⊢
    rw [normScoreAt, ← halign]
    rfl
  · simp only [hfind] at halign ⊢
    rw [normScoreAt, ← halign]
    simp only [Option.getD_some]
    exact getNormScore_assocSet_self p.2.1 tag p.2.2

theorem lookup_isSome_iff_mem (tag : String) (ids : List String) (rs : List PyDict)
    (ns : List ℚ) (hnd : ids.Nodup) (hlen : ids.length ≤ (rs.zip ns).length) (x : String) :
    (assocGet (buildLookupPure tag ids (rs.zip ns) []) x).isSome ↔ x ∈ ids := by
  rw [assocGet_buildLookupPure tag ids _ [] hnd x]
  rcases hfind : (ids.zip (rs.zip ns)).find? (fun p => p.1 == x) with _ | p
  · simp only [hfind, assocGet_nil, Option.isSome_none, Bool.false_eq_true, false_iff]
    exact (find?_zip_none_iff x ids (rs.zip ns) hlen).mp hfind
  · simp only [hfind, Option.isSome_some, true_iff]
    have hb := List.find?_some hfind
    have hmem := List.mem_of_find?_eq_some hfind
    rw [← beq_iff_eq.mp hb]
    exact (List.of_mem_zip hmem).1

/-- Entries produced by `_rank_weighted`'s combining loop carry the
`result_id` they were merged under, the spec-side weighted score, and pass
the threshold; and an entry is produced exactly for ids present in at least
one source whose weighted score reaches the threshold. -/
theorem combineOne_characterization (stdN : List ℚ → List ℚ) (config : HybridSearchConfig)
    (es vec : List PyDict) (kIds vIds : List String) (kScores vDists : List ℚ)
    (hknd : kIds.Nodup) (hvnd : vIds.Nodup)
    (hlen_ks : kScores.length = es.length) (hlen_kids : kIds.length = es.length)
    (hlen_vd : vDists.length = vec.length) (hlen_vids : vIds.length = vec.length)
    (hstd : ∀ l, (stdN l).length = l.length) (i : String) :
    (∀ e, combineOne config (esLookupOf stdN config es kIds kScores)
        (vecLookupOf stdN config vec vIds vDists) i = some e →
      e.rid = some i ∧ e.score = specWeightedScore stdN config kIds kScores vIds vDists i ∧
        config.min_score_threshold ≤ e.score) ∧
    ((∃ e, combineOne config (esLookupOf stdN config es kIds kScores)
        (vecLookupOf stdN config vec vIds vDists) i = some e) ↔
      (i ∈ kIds ∨ i ∈ vIds) ∧
        config.min_score_threshold ≤ specWeightedScore stdN config kIds kScores vIds vDists i) := by
  have hklen : es.length = (normFn stdN config.normalize_method kScores).length := by
    rw [normFn_length stdN hstd, hlen_ks]
  have hvlen : vec.length = (normFn stdN config.normalize_method (vDists.map simOf)).length := by
    rw [normFn_length stdN hstd, List.length_map, hlen_vd]
  have hK := lookup_score_eq_normScoreAt "es_norm_score" kIds es
    (normFn stdN config.normalize_method kScores) hknd hklen i
  have hV := lookup_score_eq_normScoreAt "vector_norm_score" vIds vec
    (normFn stdN config.normalize_method (vDists.map simOf)) hvnd hvlen i
  have hKmem := lookup_isSome_iff_mem "es_norm_score" kIds es
    (normFn stdN config.normalize_method kScores) hknd
    (by rw [List.length_zip, ← hklen, min_self, hlen_kids]) i
  have hVmem := lookup_isSome_iff_mem "vector_norm_score" vIds vec
    (normFn stdN config.normalize_method (vDists.map simOf)) hvnd
    (by rw [List.length_zip, ← hvlen, min_self, hlen_vids]) i
  rw [esLookupOf] at *
  rw [vecLookupOf] at *
  rcases h1 : assocGet (buildLookupPure "es_norm_score" kIds
      (es.zip (normFn stdN config.normalize_method kScores)) []) i with _ | d1 <;>
    rcases h2 : assocGet (buildLookupPure "vector_norm_score" vIds
      (vec.zip (normFn stdN config.normalize_method (vDists.map simOf))) []) i with _ | d2 <;>
    simp only [h1, h2] at hK hV hKmem hVmem <;>
    simp only [combineOne, h1, h2]
  · constructor
    · intro e he; cases he
    · simp only [Option.isSome_none, Bool.false_eq_true, false_iff] at hKmem hVmem
      constructor
      · rintro ⟨e, he⟩; cases he
      · rintro ⟨hm | hm, _⟩
        · exact absurd hm hKmem
        · exact absurd hm hVmem
  · have hs : specWeightedScore stdN config kIds kScores vIds vDists i =
        qadd (qmul config.semantic_weight (getNormScore d2 "vector_norm_score"))
          (qmul config.keyword_weight 0) := by
      rw [specWeightedScore, ← hK, ← hV, qadd_eq, qmul_eq, qmul_eq]
    constructor
    · intro e he
      split at he
      · next hth =>
        cases he
        exact ⟨rfl, hs.symm, hth⟩
      · cases he
    · constructor
      · rintro ⟨e, he⟩
        split at he
        · next hth =>
          refine ⟨Or.inr ?_, by rw [hs]; exact hth⟩
          simp only [Option.isSome_some, true_iff] at hVmem
          exact hVmem
        · cases he
      · rintro ⟨_, hth⟩
        rw [hs] at hth
        rw [if_pos hth]
        exact ⟨_, rfl⟩
  · have hs : specWeightedScore stdN config kIds kScores vIds vDists i =
        qadd (qmul config.semantic_weight 0)
          (qmul config.keyword_weight (getNormScore d1 "es_norm_score")) := by
      rw [specWeightedScore, ← hK, ← hV, qadd_eq, qmul_eq, qmul_eq]
    constructor
    · intro e he
      split at he
      · next hth =>
        cases he
        exact ⟨rfl, hs.symm, hth⟩
      · cases he
    · constructor
      · rintro ⟨e, he⟩
        split at he
        · next hth =>
          refine ⟨Or.inl ?_, by rw [hs]; exact hth⟩
          simp only [Option.isSome_some, true_iff] at hKmem
          exact hKmem
        · cases he
      · rintro ⟨_, hth⟩
        rw [hs] at hth
        rw [if_pos hth]
        exact ⟨_, rfl⟩
  · have hs : specWeightedScore stdN config kIds kScores vIds vDists i =
        qadd (qmul config.semantic_weight (getNormScore d2 "vector_norm_score"))
          (qmul config.keyword_weight (getNormScore d1 "es_norm_score")) := by
      rw [specWeightedScore, ← hK, ← hV, qadd_eq, qmul_eq, qmul_eq]
    constructor
    · intro e he
      split at he
      · next hth =>
        cases he
        exact ⟨rfl, hs.symm, hth⟩
      · cases he
    · constructor
      · rintro ⟨e, he⟩
        split at he
        · next hth =>
          refine ⟨Or.inl ?_, by rw [hs]; exact hth⟩
          simp only [Option.isSome_some, true_iff] at hKmem
          exact hKmem
        · cases he
      · rintro ⟨_, hth⟩
        rw [hs] at hth
        rw [if_pos hth]
        exact ⟨_, rfl⟩

/-- Master characterization of `_rank_weighted` under successful extraction:
the run is the pure pipeline over the pure lookups. -/
theorem rank_weighted_eq (stdN : List ℚ → List ℚ) (setOrder : List String → List String)
    (pyHash : PyDict → Int) (es vec : List PyDict) (config : HybridSearchConfig)
    (kIds vIds : List String) (kScores vDists : List ℚ)
    (hkids : es.mapM (_extract_result_id pyHash) = .ok kIds)
    (hvids : vec.mapM (_extract_result_id pyHash) = .ok vIds)
    (hks : es.mapM _extract_es_score = .ok kScores)
    (hvd : vec.mapM _extract_vector_distance = .ok vDists)
    (hknd : kIds.Nodup) (hvnd : vIds.Nodup)
    (hstd : ∀ l, (stdN l).length = l.length)
    (hes : es ≠ []) (hvec : vec ≠ []) :
    _rank_weighted stdN setOrder pyHash es vec config =
      .ok (applyMaxResults config (sortByScoreDesc
        ((setOrder ((kIds ++ vIds).dedup)).filterMap
          (combineOne config (esLookupOf stdN config es kIds kScores)
            (vecLookupOf stdN config vec vIds vDists))))) := by
  have hesb : es.isEmpty = false := by
    cases es with
    | nil => exact absurd rfl hes
    | cons a l => rfl
  have hvecb : vec.isEmpty = false := by
    cases vec with
    | nil => exact absurd rfl hvec
    | cons a l => rfl
  have hlen_ks : kScores.length = es.length := mapM_ok_length _ es kScores hks
  have hlen_kids : kIds.length = es.length := mapM_ok_length _ es kIds hkids
  have hlen_vd : vDists.length = vec.length := mapM_ok_length _ vec vDists hvd
  have hlen_vids : vIds.length = vec.length := mapM_ok_length _ vec vIds hvids
  have hkeys1 : (esLookupOf stdN config es kIds kScores).map (·.1) = kIds := by
    rw [esLookupOf, keys_buildLookupPure _ kIds _ [] hknd (by intro i _ h; simp at h)]
    simp only [List.map_nil, List.nil_append]
    rw [List.length_zip, normFn_length stdN hstd, hlen_ks, min_self,
      ← hlen_kids, List.take_length]
  have hkeys2 : (vecLookupOf stdN config vec vIds vDists).map (·.1) = vIds := by
    rw [vecLookupOf, keys_buildLookupPure _ vIds _ [] hvnd (by intro i _ h; simp at h)]
    simp only [List.map_nil, List.nil_append]
    rw [List.length_zip, normFn_length stdN hstd, List.length_map, hlen_vd,
      min_self, ← hlen_vids, List.take_length]
  have hb1 := buildLookup_eq_pure pyHash "es_norm_score" es
    (normFn stdN config.normalize_method kScores) kIds [] hkids
  have hb2 := buildLookup_eq_pure pyHash "vector_norm_score" vec
    (normFn stdN config.normalize_method (vDists.map simOf)) vIds [] hvids
  rw [show buildLookupPure "es_norm_score" kIds
      (es.zip (normFn stdN config.normalize_method kScores)) [] =
      esLookupOf stdN config es kIds kScores from rfl] at hb1
  rw [show buildLookupPure "vector_norm_score" vIds
      (vec.zip (normFn stdN config.normalize_method (vDists.map simOf))) [] =
      vecLookupOf stdN config vec vIds vDists from rfl] at hb2
  rw [_rank_weighted]
  simp only [hesb, hvecb, Bool.false_eq_true, if_false, hks, hvd, except_ok_bind, hb1, hb2]
  rw [hkeys1, hkeys2]
  rfl

theorem isEmpty_false_of_ne_nil {α : Type} {l : List α} (h : l ≠ []) : l.isEmpty = false := by
  cases l with
  | nil => exact absurd rfl h
  | cons a t => rfl

/-- With both sources non-empty and `method = 'weighted'`, `hybrid_search`
dispatches to `_rank_weighted`. -/
theorem hybrid_search_dispatch_weighted (stdN : List ℚ → List ℚ)
    (setOrder : List String → List String) (pyHash : PyDict → Int) (q : String)
    (es vec : List PyDict) (config : HybridSearchConfig)
    (hes : es ≠ []) (hvec : vec ≠ []) (hm : config.method = .weighted) :
    hybrid_search stdN setOrder pyHash q es vec (some config) =
      _rank_weighted stdN setOrder pyHash es vec config := by
  rw [hybrid_search]
  simp only [Option.getD_some, isEmpty_false_of_ne_nil hes, isEmpty_false_of_ne_nil hvec,
    Bool.false_and, Bool.false_eq_true, if_false, hm]
  rw [if_neg (show ¬ (FusionMethod.weighted = FusionMethod.rrf) from by intro h; cases h)]

/-- With both sources non-empty and `method = 'rrf'`, `hybrid_search`
dispatches to `_rank_rrf`. -/
theorem hybrid_search_dispatch_rrf (stdN : List ℚ → List ℚ)
    (setOrder : List String → List String) (pyHash : PyDict → Int) (q : String)
    (es vec : List PyDict) (config : HybridSearchConfig)
    (hes : es ≠ []) (hvec : vec ≠ []) (hm : config.method = .rrf) :
    hybrid_search stdN setOrder pyHash q es vec (some config) =
      _rank_rrf pyHash es vec config := by
  rw [hybrid_search]
  simp only [Option.getD_some, isEmpty_false_of_ne_nil hes, isEmpty_false_of_ne_nil hvec,
    Bool.false_and, Bool.false_eq_true, if_false, hm]
  rw [if_pos trivial]

theorem mem_applyMaxResults (config : HybridSearchConfig) (l : List Fused) (e : Fused)
    (h : e ∈ applyMaxResults config l) : e ∈ l := by
  rw [applyMaxResults] at h
  rcases hmr : config.max_results with _ | m
  · simp only [hmr] at h
    exact h
  · simp only [hmr] at h
    split at h
    · exact List.mem_of_mem_take h
    · exact h

/-! ### Characterizing `_rank_rrf` -/

theorem rrf_foldlM_eq_pure (pyHash : PyDict → Int) (k : ℤ) (b : Bool) :
    ∀ (ds : List PyDict) (ids : List String) (rank : ℕ)
      (acc : List (String × ℚ) × List (String × PyDict)),
      ds.mapM (_extract_result_id pyHash) = .ok ids →
      (List.enumFrom rank ds).foldlM (rrfStep pyHash k b) acc =
        .ok (rrfLoopPure k b rank ids ds acc) := by
  intro ds
  induction ds with
  | nil =>
    intro ids rank acc h
    rw [mapM_nil_ok] at h
    cases h
    rfl
  | cons d ds' ih =>
    intro ids rank acc h
    rcases (mapM_cons_ok _ _ _ _).mp h with ⟨i, ids', hi, hrest, rfl⟩
    show ((rank, d) :: List.enumFrom (rank + 1) ds').foldlM (rrfStep pyHash k b) acc = _
    rw [List.foldlM_cons]
    rw [show rrfStep pyHash k b acc (rank, d) =
        ((_extract_result_id pyHash d) >>= fun result_id =>
          pure (rrfStepPure k b acc rank result_id d)) from rfl]
    rw [hi, except_ok_bind, except_pure_eq_ok, except_ok_bind]
    exact ih ids' (rank + 1) _ hrest

theorem rrfLoopPure_scores_get (k : ℤ) (b : Bool) (x : String) :
    ∀ (ids : List String) (ds : List PyDict) (rank : ℕ)
      (acc : List (String × ℚ) × List (String × PyDict)), ids.Nodup →
      ids.length ≤ ds.length →
      assocGet (rrfLoopPure k b rank ids ds acc).1 x =
        (match ids.findIdx? (· == x) rank with
         | some r => some (qadd ((assocGet acc.1 x).getD 0) (rrfTerm k r))
         | Option.none => assocGet acc.1 x) := by
  intro ids
  induction ids with
  | nil => intro ds rank acc _ _; cases ds <;> rfl
  | cons i is ih =>
    intro ds rank acc hnd hlen
    cases ds with
    | nil => simp at hlen
    | cons d ds' =>
      rw [rrfLoopPure, List.findIdx?_cons]
      by_cases hix : i = x
      · rw [if_pos (beq_iff_eq.mpr hix)]
        rw [ih ds' (rank + 1) _ (List.Nodup.of_cons hnd) (by simpa using Nat.le_of_succ_le_succ hlen)]
        have hnone : is.findIdx? (· == x) (rank + 1) = Option.none := by
          rw [List.findIdx?_start_succ, Option.map_eq_none', List.findIdx?_eq_none_iff]
          intro y hy
          rcases hb : y == x with _ | _
          · rfl
          · rw [beq_iff_eq.mp hb, ← hix] at hy
            exact absurd hy (List.nodup_cons.mp hnd).1
        rw [hnone]
        show assocGet (rrfStepPure k b acc rank i d).1 x = _
        rw [rrfStepPure]
        subst hix
        exact assocGet_assocSet_self acc.1 i _
      · rw [if_neg (show ¬ ((i == x) = true) from by simpa using hix)]
        rw [ih ds' (rank + 1) _ (List.Nodup.of_cons hnd) (by simpa using Nat.le_of_succ_le_succ hlen)]
        have hne : assocGet (rrfStepPure k b acc rank i d).1 x = assocGet acc.1 x := by
          rw [rrfStepPure]
          exact assocGet_assocSet_ne acc.1 i x _ (fun h => hix h.symm)
        rcases hf : is.findIdx? (· == x) (rank + 1) with _ | r
        · rw [hne]
        · rw [hne]

theorem rrfLoopPure_scores_keys (k : ℤ) (b : Bool) :
    ∀ (ids : List String) (ds : List PyDict) (rank : ℕ)
      (acc : List (String × ℚ) × List (String × PyDict)), ids.Nodup →
      ids.length ≤ ds.length →
      (rrfLoopPure k b rank ids ds acc).1.map (·.1) =
        acc.1.map (·.1) ++ ids.filter (fun i => !(acc.1.any (fun p => p.1 == i))) := by
  intro ids
  induction ids with
  | nil => intro ds rank acc _ _; cases ds <;> simp [rrfLoopPure]
  | cons i is ih =>
    intro ds rank acc hnd hlen
    cases ds with
    | nil => simp at hlen
    | cons d ds' =>
      rw [rrfLoopPure, List.filter_cons]
      rw [ih ds' (rank + 1) _ (List.Nodup.of_cons hnd) (by simpa using Nat.le_of_succ_le_succ hlen)]
      by_cases hpres : acc.1.any (fun p => p.1 == i) = true
      · have hkeys : (rrfStepPure k b acc rank i d).1.map (·.1) = acc.1.map (·.1) := by
          rw [rrfStepPure, keys_assocSet, if_pos hpres]
        rw [if_neg (show ¬ ((!(acc.1.any (fun p => p.1 == i))) = true) from by
          rw [hpres]; exact (by decide))]
        rw [hkeys]
        congr 1
        apply List.filter_congr
        intro j hj
        have hkeq : (rrfStepPure k b acc rank i d).1.any (fun p => p.1 == j) =
            acc.1.any (fun p => p.1 == j) := by
          rw [Bool.eq_iff_iff, any_key_iff_mem_keys, any_key_iff_mem_keys, hkeys]
        rw [hkeq]
      · have hpres' : ¬ (acc.1.any (fun p => p.1 == i) = true) := hpres
        have hkeys : (rrfStepPure k b acc rank i d).1.map (·.1) =
            acc.1.map (·.1) ++ [i] := by
          rw [rrfStepPure, keys_assocSet, if_neg hpres']
        rw [if_pos (show (!(acc.1.any (fun p => p.1 == i))) = true from by
          rw [Bool.not_eq_true'] at *
          rcases hb : acc.1.any (fun p => p.1 == i) with _ | _
          · rfl
          · exact absurd hb hpres)]
        rw [hkeys]
        rw [List.append_assoc, List.singleton_append]
        congr 2
        apply List.filter_congr
        intro j hj
        have hji : j ≠ i := by
          intro hji
          exact (List.nodup_cons.mp hnd).1 (hji ▸ hj)
        have hkeq : (rrfStepPure k b acc rank i d).1.any (fun p => p.1 == j) =
            acc.1.any (fun p => p.1 == j) := by
          rw [Bool.eq_iff_iff, any_key_iff_mem_keys, any_key_iff_mem_keys, hkeys]
          constructor
          · intro h
            rcases List.mem_append.mp h with h' | h'
            · exact h'
            · exact absurd (List.mem_singleton.mp h') hji
          · intro h
            exact List.mem_append.mpr (Or.inl h)
        rw [hkeq]

theorem assocGet_of_mem_nodup {β : Type} :
    ∀ (l : List (String × β)) (p : String × β), (l.map (·.1)).Nodup → p ∈ l →
      assocGet l p.1 = some p.2 := by
  intro l
  induction l with
  | nil => intro p _ hp; cases hp
  | cons q qs ih =>
    intro p hnd hp
    rw [assocGet_cons]
    rcases List.mem_cons.mp hp with rfl | hp'
    · rw [if_pos rfl]
    · rw [List.map_cons, List.nodup_cons] at hnd
      rw [if_neg ?_]
      · exact ih p hnd.2 hp'
      · intro hq
        exact hnd.1 (hq ▸ List.mem_map.mpr ⟨p, hp', rfl⟩)

/-- Master characterization of `_rank_rrf` under successful extraction. -/
theorem rank_rrf_eq (pyHash : PyDict → Int) (es vec : List PyDict)
    (config : HybridSearchConfig) (kIds vIds : List String)
    (hkids : es.mapM (_extract_result_id pyHash) = .ok kIds)
    (hvids : vec.mapM (_extract_result_id pyHash) = .ok vIds) :
    _rank_rrf pyHash es vec config =
      .ok (applyMaxResults config (sortByScoreDesc
        (rrfCombined (rrfAccOf config.rrf_k kIds vIds es vec)))) := by
  rw [_rank_rrf]
  rw [rrf_foldlM_eq_pure pyHash config.rrf_k false es kIds 1 ([], []) hkids, except_ok_bind]
  rw [rrf_foldlM_eq_pure pyHash config.rrf_k true vec vIds 1 _ hvids, except_ok_bind]
  rfl

theorem any_beq_iff_mem (ids : List String) (x : String) :
    (ids.any (fun y => y == x)) = true ↔ x ∈ ids := by
  rw [List.any_eq_true]
  constructor
  · rintro ⟨y, hy, hb⟩
    rw [← beq_iff_eq.mp hb]
    exact hy
  · intro h
    exact ⟨x, h, beq_iff_eq.mpr rfl⟩

theorem indexOf?_eq_none_iff_str (ids : List String) (x : String) :
    ids.indexOf? x = Option.none ↔ x ∉ ids := by
  rw [show ids.indexOf? x = ids.findIdx? (fun y => y == x) from rfl, List.findIdx?_eq_none_iff]
  constructor
  · intro h hx
    have hxx := h x hx
    simp at hxx
  · intro h y hy
    rcases hb : (y == x) with _ | _
    · rfl
    · exact absurd ((beq_iff_eq.mp hb) ▸ hy) h

theorem indexOf?_isSome_of_mem (ids : List String) (x : String) (h : x ∈ ids) :
    ∃ j, ids.indexOf? x = some j := by
  rcases hf : ids.indexOf? x with _ | j
  · exact absurd ((indexOf?_eq_none_iff_str ids x).mp hf) (not_not_intro h)
  · exact ⟨j, rfl⟩

theorem findIdx?_one_eq_indexOf? (ids : List String) (x : String) :
    ids.findIdx? (· == x) 1 = (ids.indexOf? x).map (fun j => j + 1) := by
  rw [show (1 : ℕ) = 0 + 1 from rfl, List.findIdx?_start_succ]
  rfl

/-- After both RRF loops the score table has one entry per id of the union,
keyed without duplicates, and every entry's value is the spec's RRF score. -/
theorem rrfAcc_characterization (k : ℤ) (kIds vIds : List String) (es vec : List PyDict)
    (hknd : kIds.Nodup) (hvnd : vIds.Nodup)
    (hlk : kIds.length ≤ es.length) (hlv : vIds.length ≤ vec.length) :
    ((rrfAccOf k kIds vIds es vec).1.map (·.1)).Nodup ∧
    (∀ x, x ∈ (rrfAccOf k kIds vIds es vec).1.map (·.1) ↔ x ∈ kIds ++ vIds) ∧
    (∀ p ∈ (rrfAccOf k kIds vIds es vec).1, p.2 = specRrfScore k kIds vIds p.1) := by
  have hS1keys : (rrfLoopPure k false 1 kIds es ([], [])).1.map (·.1) = kIds := by
    rw [rrfLoopPure_scores_keys k false kIds es 1 ([], []) hknd hlk]
    simp only [List.map_nil, List.nil_append, List.any_nil, Bool.not_false, List.filter_true]
  have hS1get : ∀ x, assocGet (rrfLoopPure k false 1 kIds es ([], [])).1 x =
      (match kIds.findIdx? (· == x) 1 with
       | some r => some (qadd 0 (rrfTerm k r))
       | Option.none => Option.none) := by
    intro x
    have h := rrfLoopPure_scores_get k false x kIds es 1 ([], []) hknd hlk
    rcases hf : kIds.findIdx? (· == x) 1 with _ | r <;> rw [hf] at h <;> exact h
  have hS2keys : (rrfAccOf k kIds vIds es vec).1.map (·.1) =
      kIds ++ vIds.filter (fun i =>
        !((rrfLoopPure k false 1 kIds es ([], [])).1.any (fun p => p.1 == i))) := by
    rw [rrfAccOf, rrfLoopPure_scores_keys k true vIds vec 1 _ hvnd hlv, hS1keys]
  have hfilter_mem : ∀ i, ((!((rrfLoopPure k false 1 kIds es ([], [])).1.any
      (fun p => p.1 == i))) = true) ↔ i ∉ kIds := by
    intro i
    rw [Bool.not_eq_true', ← Bool.not_eq_true]
    rw [any_key_iff_mem_keys, hS1keys]
  have hnd2 : ((rrfAccOf k kIds vIds es vec).1.map (·.1)).Nodup := by
    rw [hS2keys]
    refine List.Nodup.append hknd (List.Nodup.filter _ hvnd) ?_
    intro x hx hxf
    have := List.of_mem_filter hxf
    exact (hfilter_mem x).mp this hx
  refine ⟨hnd2, ?_, ?_⟩
  · intro x
    rw [hS2keys, List.mem_append, List.mem_append]
    constructor
    · rintro (h | h)
      · exact Or.inl h
      · exact Or.inr (List.mem_of_mem_filter h)
    · rintro (h | h)
      · exact Or.inl h
      · by_cases hk : x ∈ kIds
        · exact Or.inl hk
        · exact Or.inr (List.mem_filter.mpr ⟨h, (hfilter_mem x).mpr hk⟩)
  · intro p hp
    have hget : assocGet (rrfAccOf k kIds vIds es vec).1 p.1 = some p.2 :=
      assocGet_of_mem_nodup _ p hnd2 hp
    have hget2 := rrfLoopPure_scores_get k true p.1 vIds vec 1
      (rrfLoopPure k false 1 kIds es ([], [])) hvnd hlv
    rw [show (rrfAccOf k kIds vIds es vec).1 =
      (rrfLoopPure k true 1 vIds vec (rrfLoopPure k false 1 kIds es ([], []))).1 from rfl] at hget
    rw [hget2] at hget
    rw [specRrfScore]
    rw [findIdx?_one_eq_indexOf? vIds p.1] at hget
    rcases hv : vIds.indexOf? p.1 with _ | j₂ <;>
      rw [hv] at hget <;>
      simp only [Option.map_some', Option.map_none'] at hget <;>
      rw [hS1get p.1, findIdx?_one_eq_indexOf? kIds p.1] at hget <;>
      rcases hk2 : kIds.indexOf? p.1 with _ | j₁ <;>
      rw [hk2] at hget <;>
      simp only [Option.map_some', Option.map_none', Option.getD_some, Option.getD_none] at hget <;>
      simp only [hv, hk2]
    · cases hget
    · have hval := Option.some.inj hget
      rw [← hval]
      simp only [rrfTerm_eq, qadd_eq]
      push_cast
      ring
    · have hval := Option.some.inj hget
      rw [← hval]
      simp only [rrfTerm_eq, qadd_eq]
      push_cast
      ring
    · have hval := Option.some.inj hget
      rw [← hval]
      simp only [rrfTerm_eq, qadd_eq]
      push_cast
      ring

/-! ### Claim C1 — Weighted method score formula -/

/-- C1: under the Weighted method, with both input lists non-empty and a
valid config, every output entry was merged under an id present in at least
one source, and its `hybrid_score` equals
`semantic_weight * semantic_norm + keyword_weight * keyword_norm`, where the
normalized scores are computed per source over that source's own result set
(vector distances first converted via `max(0, 1 - d)`) and an absent source
contributes `0.0`. -/
theorem claim_C1_weighted_formula
    (stdN : List ℚ → List ℚ) (setOrder : List String → List String) (pyHash : PyDict → Int)
    (q : String) (es vec : List PyDict) (config : HybridSearchConfig)
    (kIds vIds : List String) (kScores vDists : List ℚ)
    (hconf : HybridSearchConfig.post_init config = .ok config)
    (hm : config.method = .weighted)
    (hes : es ≠ []) (hvec : vec ≠ [])
    (hkids : es.mapM (_extract_result_id pyHash) = .ok kIds)
    (hvids : vec.mapM (_extract_result_id pyHash) = .ok vIds)
    (hks : es.mapM _extract_es_score = .ok kScores)
    (hvd : vec.mapM _extract_vector_distance = .ok vDists)
    (hknd : kIds.Nodup) (hvnd : vIds.Nodup)
    (hstd : ∀ l, (stdN l).length = l.length)
    (hord : ∀ l : List String, (setOrder l).Perm l) :
    ∃ out, hybrid_search stdN setOrder pyHash q es vec (some config) = .ok out ∧
      ∀ e ∈ out, ∃ i, e.rid = some i ∧ (i ∈ kIds ∨ i ∈ vIds) ∧
        e.score = specWeightedScore stdN config kIds kScores vIds vDists i := by
  rw [hybrid_search_dispatch_weighted stdN setOrder pyHash q es vec config hes hvec hm]
  rw [rank_weighted_eq stdN setOrder pyHash es vec config kIds vIds kScores vDists hkids hvids
    hks hvd hknd hvnd hstd hes hvec]
  refine ⟨_, rfl, ?_⟩
  intro e he
  have he1 := mem_applyMaxResults config _ e he
  rw [mem_sortByScoreDesc] at he1
  rcases List.mem_filterMap.mp he1 with ⟨i, _, hcomb⟩
  have hchar := combineOne_characterization stdN config es vec kIds vIds kScores vDists
    hknd hvnd (mapM_ok_length _ es kScores hks) (mapM_ok_length _ es kIds hkids)
    (mapM_ok_length _ vec vDists hvd) (mapM_ok_length _ vec vIds hvids) hstd i
  rcases hchar.1 e hcomb with ⟨hrid, hscore, _⟩
  have hmem := (hchar.2.mp ⟨e, hcomb⟩).1
  exact ⟨i, hrid, hmem, hscore⟩

/-- C1 witness: the theorem applied to a concrete run (keyword results a, b
with scores 1.0, 2.0; vector results c, d with distances 0.5, 0.4; default
0.7/0.3 weighted MinMax config). -/
theorem claim_C1_weighted_formula_witness :
    ∃ out, hybrid_search stdId ordId hashZero "q" esW vecW (some {}) = .ok out ∧
      ∀ e ∈ out, ∃ i, e.rid = some i ∧ (i ∈ ["a", "b"] ∨ i ∈ ["c", "d"]) ∧
        e.score = specWeightedScore stdId {} ["a", "b"] [mkRat 1 1, mkRat 2 1]
          ["c", "d"] [mkRat 1 2, mkRat 2 5] i :=
  claim_C1_weighted_formula stdId ordId hashZero "q" esW vecW {}
    ["a", "b"] ["c", "d"] [mkRat 1 1, mkRat 2 1] [mkRat 1 2, mkRat 2 5]
    (by decide) rfl (List.cons_ne_nil _ _) (List.cons_ne_nil _ _)
    (by decide) (by decide) (by decide) (by decide) (by decide) (by decide)
    (fun _ => rfl) (fun l => List.Perm.refl l)

/-! ### Claim C2 — RRF score formula -/

theorem applyMaxResults_none (config : HybridSearchConfig) (hcap : config.max_results = Option.none)
    (l : List Fused) : applyMaxResults config l = l := by
  rw [applyMaxResults, hcap]

theorem applyMaxResults_sublist (config : HybridSearchConfig) (l : List Fused) :
    (applyMaxResults config l).Sublist l := by
  rw [applyMaxResults]
  rcases hmr : config.max_results with _ | m
  · simp only [hmr]
    exact List.Sublist.refl _
  · simp only [hmr]
    split
    · exact List.take_sublist _ _
    · exact List.Sublist.refl _

theorem rrfCombined_map_rid (acc : List (String × ℚ) × List (String × PyDict)) :
    (rrfCombined acc).map Fused.rid = acc.1.map (fun p => some p.1) := by
  rw [rrfCombined, List.map_map]
  rfl

/-- Inside `_rank_rrf`'s output (under successful extraction and per-source
unique ids): every entry carries the spec RRF score of its id; and, with no
result cap, the output ids are exactly the union — no threshold is applied. -/
theorem rank_rrf_out (pyHash : PyDict → Int) (es vec : List PyDict)
    (config : HybridSearchConfig) (kIds vIds : List String)
    (hkids : es.mapM (_extract_result_id pyHash) = .ok kIds)
    (hvids : vec.mapM (_extract_result_id pyHash) = .ok vIds)
    (hknd : kIds.Nodup) (hvnd : vIds.Nodup) :
    ∃ out, _rank_rrf pyHash es vec config = .ok out ∧
      (∀ e ∈ out, ∃ i, e.rid = some i ∧ i ∈ kIds ++ vIds ∧
        e.score = specRrfScore config.rrf_k kIds vIds i) ∧
      (out.map Fused.rid).Nodup ∧
      (config.max_results = Option.none → ∀ i, some i ∈ out.map Fused.rid ↔ i ∈ kIds ++ vIds) := by
  have hlk : kIds.length ≤ es.length := le_of_eq (mapM_ok_length _ es kIds hkids)
  have hlv : vIds.length ≤ vec.length := le_of_eq (mapM_ok_length _ vec vIds hvids)
  have hchar := rrfAcc_characterization config.rrf_k kIds vIds es vec hknd hvnd hlk hlv
  rw [rank_rrf_eq pyHash es vec config kIds vIds hkids hvids]
  refine ⟨_, rfl, ?_, ?_, ?_⟩
  · intro e he
    have he1 := mem_applyMaxResults config _ e he
    rw [mem_sortByScoreDesc] at he1
    rw [rrfCombined, List.mem_map] at he1
    rcases he1 with ⟨p, hp, rfl⟩
    exact ⟨p.1, rfl, (hchar.2.1 p.1).mp (List.mem_map.mpr ⟨p, hp, rfl⟩),
      hchar.2.2 p hp⟩
  · apply List.Nodup.sublist ((applyMaxResults_sublist config _).map Fused.rid)
    have hperm2 := (sortByScoreDesc_perm
      (rrfCombined (rrfAccOf config.rrf_k kIds vIds es vec))).map Fused.rid
    apply hperm2.nodup_iff.mpr
    rw [rrfCombined_map_rid]
    have : (rrfAccOf config.rrf_k kIds vIds es vec).1.map (fun p => some p.1) =
        ((rrfAccOf config.rrf_k kIds vIds es vec).1.map (·.1)).map some := by
      rw [List.map_map]; rfl
    rw [this]
    exact hchar.1.map (fun a b h => Option.some.inj h)
  · intro hcap i
    rw [applyMaxResults_none config hcap]
    have hperm2 := (sortByScoreDesc_perm
      (rrfCombined (rrfAccOf config.rrf_k kIds vIds es vec))).map Fused.rid
    rw [hperm2.mem_iff, rrfCombined_map_rid]
    rw [← hchar.2.1 i]
    constructor
    · intro h
      rcases List.mem_map.mp h with ⟨p, hp, hpe⟩
      have : p.1 = i := Option.some.inj hpe
      exact this ▸ List.mem_map.mpr ⟨p, hp, rfl⟩
    · intro h
      rcases List.mem_map.mp h with ⟨p, hp, hpe⟩
      exact List.mem_map.mpr ⟨p, hp, by rw [hpe]⟩

/-- C2, amended: under RRF every candidate's `hybrid_score` is the sum over
sources containing its id of `1/(k + rank)` (1-based rank in the source's
original input order, no normalization, no threshold — with no result cap
every id of the union appears); in the spec's concrete scenario with
`rrf_k = 60`, `e2` (rank 1 in the vector list, rank 2 in the keyword list)
gets `rrf_score = 1/(60+2) + 1/(60+1) = 123/3782 ≈ 0.0325`, within 1e-4 of
0.0325 — not of the original claim's misrounded literal 0.0330. -/
theorem claim_C2_rrf_formula
    (stdN : List ℚ → List ℚ) (setOrder : List String → List String) (pyHash : PyDict → Int)
    (q : String) (es vec : List PyDict) (config : HybridSearchConfig)
    (kIds vIds : List String)
    (hconf : HybridSearchConfig.post_init config = .ok config)
    (hm : config.method = .rrf)
    (hes : es ≠ []) (hvec : vec ≠ [])
    (hkids : es.mapM (_extract_result_id pyHash) = .ok kIds)
    (hvids : vec.mapM (_extract_result_id pyHash) = .ok vIds)
    (hknd : kIds.Nodup) (hvnd : vIds.Nodup) :
    (∃ out, hybrid_search stdN setOrder pyHash q es vec (some config) = .ok out ∧
      (∀ e ∈ out, ∃ i, e.rid = some i ∧ i ∈ kIds ++ vIds ∧
        e.score = specRrfScore config.rrf_k kIds vIds i) ∧
      (config.max_results = Option.none → ∀ i, some i ∈ out.map Fused.rid ↔ i ∈ kIds ++ vIds)) ∧
    ((hybrid_search stdId ordId hashZero "invoice payment" esSpec vecSpec (some cfgRrf60)).map
        (fun l => l.map (fun e => (e.rid, e.score))) =
      .ok [(some "e2", mkRat 123 3782), (some "e1", mkRat 1 61), (some "e4", mkRat 1 62),
           (some "e3", mkRat 1 63), (some "e5", mkRat 1 63)]) ∧
    specRrfScore 60 ["e1", "e2", "e3"] ["e2", "e4", "e5"] "e2" = mkRat 123 3782 ∧
    |(mkRat 123 3782 : ℚ) - mkRat 325 10000| ≤ mkRat 1 10000 := by
  refine ⟨?_, by decide, ?_, ?_⟩
  · rw [hybrid_search_dispatch_rrf stdN setOrder pyHash q es vec config hes hvec hm]
    rcases rank_rrf_out pyHash es vec config kIds vIds hkids hvids hknd hvnd with
      ⟨out, hout, hform, _, hcomplete⟩
    exact ⟨out, hout, hform, hcomplete⟩
  · rw [specRrfScore,
      show List.indexOf? "e2" ["e1", "e2", "e3"] = some 1 from rfl,
      show List.indexOf? "e2" ["e2", "e4", "e5"] = some 0 from rfl]
    rw [mkRat_cast_div]
    norm_num
  · have hdiff : (mkRat 123 3782 : ℚ) - mkRat 325 10000 = 17/756400 := by
      rw [mkRat_cast_div, mkRat_cast_div]
      norm_num
    rw [hdiff, abs_of_pos (by norm_num), mkRat_cast_div]
    norm_num

/-- C2 counterexample: in the spec's concrete scenario `e2`'s rrf_score is
`123/3782 ≈ 0.03252`, which is *not* within 1e-4 of the claim's literal
0.0330. -/
theorem claim_C2_counterexample :
    ((hybrid_search stdId ordId hashZero "invoice payment" esSpec vecSpec (some cfgRrf60)).map
        (fun l => l.map (fun e => (e.rid, e.score))) =
      .ok [(some "e2", mkRat 123 3782), (some "e1", mkRat 1 61), (some "e4", mkRat 1 62),
           (some "e3", mkRat 1 63), (some "e5", mkRat 1 63)]) ∧
    ¬ (|(mkRat 123 3782 : ℚ) - mkRat 330 10000| ≤ mkRat 1 10000) := by
  refine ⟨by decide, ?_⟩
  have hdiff : (mkRat 123 3782 : ℚ) - mkRat 330 10000 = -(903/1891000) := by
    rw [mkRat_cast_div, mkRat_cast_div]
    norm_num
  rw [hdiff, abs_neg, abs_of_pos (by norm_num), mkRat_cast_div]
  norm_num

/-- C2 witness: the amended theorem applied to the spec's concrete RRF
scenario itself. -/
theorem claim_C2_rrf_formula_witness :
    (∃ out, hybrid_search stdId ordId hashZero "invoice payment" esSpec vecSpec
        (some cfgRrf60) = .ok out ∧
      (∀ e ∈ out, ∃ i, e.rid = some i ∧ i ∈ ["e1", "e2", "e3"] ++ ["e2", "e4", "e5"] ∧
        e.score = specRrfScore cfgRrf60.rrf_k ["e1", "e2", "e3"] ["e2", "e4", "e5"] i) ∧
      (cfgRrf60.max_results = Option.none →
        ∀ i, some i ∈ out.map Fused.rid ↔ i ∈ ["e1", "e2", "e3"] ++ ["e2", "e4", "e5"])) ∧
    ((hybrid_search stdId ordId hashZero "invoice payment" esSpec vecSpec (some cfgRrf60)).map
        (fun l => l.map (fun e => (e.rid, e.score))) =
      .ok [(some "e2", mkRat 123 3782), (some "e1", mkRat 1 61), (some "e4", mkRat 1 62),
           (some "e3", mkRat 1 63), (some "e5", mkRat 1 63)]) ∧
    specRrfScore 60 ["e1", "e2", "e3"] ["e2", "e4", "e5"] "e2" = mkRat 123 3782 ∧
    |(mkRat 123 3782 : ℚ) - mkRat 325 10000| ≤ mkRat 1 10000 :=
  claim_C2_rrf_formula stdId ordId hashZero "invoice payment" esSpec vecSpec cfgRrf60
    ["e1", "e2", "e3"] ["e2", "e4", "e5"]
    (by decide) rfl (List.cons_ne_nil _ _) (List.cons_ne_nil _ _)
    (by decide) (by decide) (by decide) (by decide)

/-! ### Claim C3 — completeness and no duplication -/

/-- Decorating a candidate with score fields does not change its extracted
id, provided it has an explicit id key. -/
theorem extract_id_assocSet (pyHash : PyDict → Int) (d : PyDict) (k : String) (v : PyVal)
    (hid : hasIdKey d = true) (hk1 : k ≠ "_id") (hk2 : k ≠ "id") :
    _extract_result_id pyHash (assocSet d k v) = _extract_result_id pyHash d := by
  rw [_extract_result_id, _extract_result_id]
  rw [assocGet_assocSet_ne d k "_id" v (fun h => hk1 h.symm)]
  rw [assocGet_assocSet_ne d k "id" v (fun h => hk2 h.symm)]
  rcases h1 : assocGet d "_id" with _ | x
  · rcases h2 : assocGet d "id" with _ | y
    · rw [hasIdKey, h1, h2] at hid
      cases hid
    · rfl
  · rfl

theorem mapM_eq_map_ok {ε α β : Type} (f : α → Except ε β) :
    ∀ (xs : List α) (ys : List β), xs.mapM f = .ok ys → xs.map f = ys.map Except.ok := by
  intro xs
  induction xs with
  | nil => intro ys h; rw [mapM_nil_ok] at h; cases h; rfl
  | cons x xs' ih =>
    intro ys h
    rcases (mapM_cons_ok _ _ _ _).mp h with ⟨y, ys', hy, hys', rfl⟩
    rw [List.map_cons, List.map_cons, hy, ih ys' hys']

theorem zip_map_fst {α β γ : Type} (h : α → γ) :
    ∀ (xs : List α) (ys : List β), xs.length = ys.length →
      (xs.zip ys).map (fun p => h p.1) = xs.map h := by
  intro xs
  induction xs with
  | nil => intro ys _; rfl
  | cons x xs' ih =>
    intro ys hlen
    cases ys with
    | nil => cases hlen
    | cons y ys' =>
      rw [List.zip_cons_cons, List.map_cons, List.map_cons, ih ys' (by simpa using hlen)]

/-- The vector-only shortcut path, characterized. -/
theorem hybrid_search_vec_only (stdN : List ℚ → List ℚ) (setOrder : List String → List String)
    (pyHash : PyDict → Int) (q : String) (vec : List PyDict) (config : HybridSearchConfig)
    (vDists : List ℚ) (hvec : vec ≠ [])
    (hvd : vec.mapM _extract_vector_distance = .ok vDists) :
    hybrid_search stdN setOrder pyHash q [] vec (some config) =
      .ok (applyMaxResults config (sortByScoreDesc
        ((vec.zip (_normalize_scores_minmax (vDists.map simOf))).map (fun rs =>
          (⟨Option.none, rs.2,
            assocSet (assocSet (assocSet rs.1 "hybrid_score" (.float rs.2))
              "vector_norm_score" (.float rs.2)) "es_norm_score" (.float 0)⟩ : Fused))))) := by
  rw [hybrid_search]
  simp only [Option.getD_some, List.isEmpty_nil, isEmpty_false_of_ne_nil hvec, Bool.true_and,
    Bool.false_eq_true, if_false, if_true, hvd, except_ok_bind]
  rfl

/-- The keyword-only shortcut path, characterized. -/
theorem hybrid_search_es_only (stdN : List ℚ → List ℚ) (setOrder : List String → List String)
    (pyHash : PyDict → Int) (q : String) (es : List PyDict) (config : HybridSearchConfig)
    (kScores : List ℚ) (hes : es ≠ [])
    (hks : es.mapM _extract_es_score = .ok kScores) :
    hybrid_search stdN setOrder pyHash q es [] (some config) =
      .ok (applyMaxResults config (sortByScoreDesc
        ((es.zip (_normalize_scores_minmax kScores)).map (fun rs =>
          (⟨Option.none, rs.2,
            assocSet (assocSet (assocSet rs.1 "hybrid_score" (.float rs.2))
              "es_norm_score" (.float rs.2)) "vector_norm_score" (.float 0)⟩ : Fused))))) := by
  rw [hybrid_search]
  simp only [Option.getD_some, List.isEmpty_nil, isEmpty_false_of_ne_nil hes, Bool.and_true,
    Bool.false_eq_true, if_false, if_true, hks, except_ok_bind]
  rfl

theorem filterMap_map_rid (f : String → Option Fused)
    (hf : ∀ i e, f i = some e → e.rid = some i) :
    ∀ order : List String, (order.filterMap f).map Fused.rid =
      (order.filter (fun i => (f i).isSome)).map some := by
  intro order
  induction order with
  | nil => rfl
  | cons i is ih =>
    rw [List.filterMap_cons, List.filter_cons]
    rcases hfi : f i with _ | e
    · simp only [hfi, Option.isSome_none, Bool.false_eq_true, if_false]
      exact ih
    · simp only [hfi, Option.isSome_some, if_true]
      rw [List.map_cons, ih, hf i e hfi, List.map_cons]

/-- Full characterization of `_rank_weighted`'s output: score formula,
no duplicate ids, descending order, and (uncapped) exact membership. -/
theorem rank_weighted_out (stdN : List ℚ → List ℚ) (setOrder : List String → List String)
    (pyHash : PyDict → Int) (es vec : List PyDict) (config : HybridSearchConfig)
    (kIds vIds : List String) (kScores vDists : List ℚ)
    (hkids : es.mapM (_extract_result_id pyHash) = .ok kIds)
    (hvids : vec.mapM (_extract_result_id pyHash) = .ok vIds)
    (hks : es.mapM _extract_es_score = .ok kScores)
    (hvd : vec.mapM _extract_vector_distance = .ok vDists)
    (hknd : kIds.Nodup) (hvnd : vIds.Nodup)
    (hstd : ∀ l, (stdN l).length = l.length)
    (hord : ∀ l : List String, (setOrder l).Perm l)
    (hes : es ≠ []) (hvec : vec ≠ []) :
    ∃ out, _rank_weighted stdN setOrder pyHash es vec config = .ok out ∧
      (∀ e ∈ out, ∃ i, e.rid = some i ∧ (i ∈ kIds ∨ i ∈ vIds) ∧
        e.score = specWeightedScore stdN config kIds kScores vIds vDists i) ∧
      (out.map Fused.rid).Nodup ∧
      out.Pairwise (fun a b => b.score ≤ a.score) ∧
      (config.max_results = Option.none →
        ∀ i, some i ∈ out.map Fused.rid ↔ (i ∈ kIds ++ vIds) ∧
          config.min_score_threshold ≤ specWeightedScore stdN config kIds kScores vIds vDists i) := by
  have hchar := fun i => combineOne_characterization stdN config es vec kIds vIds kScores vDists
    hknd hvnd (mapM_ok_length _ es kScores hks) (mapM_ok_length _ es kIds hkids)
    (mapM_ok_length _ vec vDists hvd) (mapM_ok_length _ vec vIds hvids) hstd i
  have hf : ∀ i e, combineOne config (esLookupOf stdN config es kIds kScores)
      (vecLookupOf stdN config vec vIds vDists) i = some e → e.rid = some i :=
    fun i e he => ((hchar i).1 e he).1
  have hrid_eq := filterMap_map_rid _ hf (setOrder ((kIds ++ vIds).dedup))
  have hord_nodup : (setOrder ((kIds ++ vIds).dedup)).Nodup :=
    ((hord _).nodup_iff).mpr (List.nodup_dedup _)
  rw [rank_weighted_eq stdN setOrder pyHash es vec config kIds vIds kScores vDists hkids hvids
    hks hvd hknd hvnd hstd hes hvec]
  refine ⟨_, rfl, ?_, ?_, ?_, ?_⟩
  · intro e he
    have he1 := mem_applyMaxResults config _ e he
    rw [mem_sortByScoreDesc] at he1
    rcases List.mem_filterMap.mp he1 with ⟨i, _, hcomb⟩
    rcases (hchar i).1 e hcomb with ⟨hrid, hscore, _⟩
    exact ⟨i, hrid, ((hchar i).2.mp ⟨e, hcomb⟩).1, hscore⟩
  · apply List.Nodup.sublist ((applyMaxResults_sublist config _).map Fused.rid)
    apply ((sortByScoreDesc_perm _).map Fused.rid).nodup_iff.mpr
    rw [hrid_eq]
    exact ((hord_nodup.filter _).map (fun a b h => Option.some.inj h))
  · exact List.Pairwise.sublist (applyMaxResults_sublist config _) (sortByScoreDesc_pairwise _)
  · intro hcap i
    rw [applyMaxResults_none config hcap]
    rw [((sortByScoreDesc_perm _).map Fused.rid).mem_iff, hrid_eq]
    constructor
    · intro h
      rcases List.mem_map.mp h with ⟨j, hj, hje⟩
      cases Option.some.inj hje
      have hmem := List.mem_filter.mp hj
      rcases Option.isSome_iff_exists.mp hmem.2 with ⟨e, he⟩
      have h2 := ((hchar i).2).mp ⟨e, he⟩
      refine ⟨?_, h2.2⟩
      rcases h2.1 with hk | hv
      · exact List.mem_append.mpr (Or.inl hk)
      · exact List.mem_append.mpr (Or.inr hv)
    · rintro ⟨hmem, hth⟩
      have hm2 : i ∈ kIds ∨ i ∈ vIds := List.mem_append.mp hmem
      rcases ((hchar i).2).mpr ⟨hm2, hth⟩ with ⟨e, he⟩
      apply List.mem_map.mpr
      refine ⟨i, List.mem_filter.mpr ⟨?_, Option.isSome_iff_exists.mpr ⟨e, he⟩⟩, rfl⟩
      rw [(hord _).mem_iff, List.mem_dedup]
      exact hmem

theorem hasIdKey_assocSet (d : PyDict) (k : String) (v : PyVal)
    (hk1 : k ≠ "_id") (hk2 : k ≠ "id") : hasIdKey (assocSet d k v) = hasIdKey d := by
  rw [hasIdKey, hasIdKey]
  rw [assocGet_assocSet_ne d k "_id" v (fun h => hk1 h.symm)]
  rw [assocGet_assocSet_ne d k "id" v (fun h => hk2 h.symm)]

/-- In the vector-only shortcut (no result cap) the output candidates are
exactly the input candidates decorated with score fields: their extracted
ids are a permutation of the input's ids. -/
theorem vec_only_out_ids (stdN : List ℚ → List ℚ) (setOrder : List String → List String)
    (pyHash : PyDict → Int) (q : String) (vec : List PyDict) (config : HybridSearchConfig)
    (vDists : List ℚ) (vIds : List String) (hvec : vec ≠ [])
    (hvd : vec.mapM _extract_vector_distance = .ok vDists)
    (hvids : vec.mapM (_extract_result_id pyHash) = .ok vIds)
    (hid : ∀ d ∈ vec, hasIdKey d = true)
    (hcap : config.max_results = Option.none) :
    ∃ out, hybrid_search stdN setOrder pyHash q [] vec (some config) = .ok out ∧
      (out.map (fun e => _extract_result_id pyHash e.data)).Perm (vIds.map Except.ok) := by
  have hlen : vec.length = (_normalize_scores_minmax (vDists.map simOf)).length := by
    rw [minmax_length, List.length_map, mapM_ok_length _ vec vDists hvd]
  rw [hybrid_search_vec_only stdN setOrder pyHash q vec config vDists hvec hvd,
    applyMaxResults_none config hcap]
  refine ⟨_, rfl, ?_⟩
  have hmapf : ∀ rs ∈ vec.zip (_normalize_scores_minmax (vDists.map simOf)),
      _extract_result_id pyHash
        (assocSet (assocSet (assocSet rs.1 "hybrid_score" (.float rs.2))
          "vector_norm_score" (.float rs.2)) "es_norm_score" (.float 0)) =
        _extract_result_id pyHash rs.1 := by
    intro rs hrs
    have hid1 : hasIdKey rs.1 = true := hid rs.1 (List.of_mem_zip hrs).1
    have h2 : hasIdKey (assocSet rs.1 "hybrid_score" (.float rs.2)) = true := by
      rw [hasIdKey_assocSet _ _ _ (by decide) (by decide)]
      exact hid1
    have h3 : hasIdKey (assocSet (assocSet rs.1 "hybrid_score" (.float rs.2))
        "vector_norm_score" (.float rs.2)) = true := by
      rw [hasIdKey_assocSet _ _ _ (by decide) (by decide)]
      exact h2
    rw [extract_id_assocSet pyHash _ _ _ h3 (by decide) (by decide)]
    rw [extract_id_assocSet pyHash _ _ _ h2 (by decide) (by decide)]
    rw [extract_id_assocSet pyHash _ _ _ hid1 (by decide) (by decide)]
  refine List.Perm.trans ((sortByScoreDesc_perm _).map _) ?_
  rw [List.map_map]
  simp only [Function.comp_def]
  rw [List.map_congr_left (fun rs hrs => hmapf rs hrs)]
  rw [zip_map_fst _ vec _ hlen]
  rw [mapM_eq_map_ok _ vec vIds hvids]

/-- In the keyword-only shortcut (no result cap) the output candidates are
exactly the input candidates decorated with score fields: their extracted
ids are a permutation of the input's ids. -/
theorem es_only_out_ids (stdN : List ℚ → List ℚ) (setOrder : List String → List String)
    (pyHash : PyDict → Int) (q : String) (es : List PyDict) (config : HybridSearchConfig)
    (kScores : List ℚ) (kIds : List String) (hes : es ≠ [])
    (hks : es.mapM _extract_es_score = .ok kScores)
    (hkids : es.mapM (_extract_result_id pyHash) = .ok kIds)
    (hid : ∀ d ∈ es, hasIdKey d = true)
    (hcap : config.max_results = Option.none) :
    ∃ out, hybrid_search stdN setOrder pyHash q es [] (some config) = .ok out ∧
      (out.map (fun e => _extract_result_id pyHash e.data)).Perm (kIds.map Except.ok) := by
  have hlen : es.length = (_normalize_scores_minmax kScores).length := by
    rw [minmax_length, mapM_ok_length _ es kScores hks]
  rw [hybrid_search_es_only stdN setOrder pyHash q es config kScores hes hks,
    applyMaxResults_none config hcap]
  refine ⟨_, rfl, ?_⟩
  have hmapf : ∀ rs ∈ es.zip (_normalize_scores_minmax kScores),
      _extract_result_id pyHash
        (assocSet (assocSet (assocSet rs.1 "hybrid_score" (.float rs.2))
          "es_norm_score" (.float rs.2)) "vector_norm_score" (.float 0)) =
        _extract_result_id pyHash rs.1 := by
    intro rs hrs
    have hid1 : hasIdKey rs.1 = true := hid rs.1 (List.of_mem_zip hrs).1
    have h2 : hasIdKey (assocSet rs.1 "hybrid_score" (.float rs.2)) = true := by
      rw [hasIdKey_assocSet _ _ _ (by decide) (by decide)]
      exact hid1
    have h3 : hasIdKey (assocSet (assocSet rs.1 "hybrid_score" (.float rs.2))
        "es_norm_score" (.float rs.2)) = true := by
      rw [hasIdKey_assocSet _ _ _ (by decide) (by decide)]
      exact h2
    rw [extract_id_assocSet pyHash _ _ _ h3 (by decide) (by decide)]
    rw [extract_id_assocSet pyHash _ _ _ h2 (by decide) (by decide)]
    rw [extract_id_assocSet pyHash _ _ _ hid1 (by decide) (by decide)]
  refine List.Perm.trans ((sortByScoreDesc_perm _).map _) ?_
  rw [List.map_map]
  simp only [Function.comp_def]
  rw [List.map_congr_left (fun rs hrs => hmapf rs hrs)]
  rw [zip_map_fst _ es _ hlen]
  rw [mapM_eq_map_ok _ es kIds hkids]

/-- C3, amended: with per-list-unique ids, a valid config and **no result
cap** (`max_results` unset — truncation, which the original claim omits,
otherwise removes trailing ids), the output contains each id at most once,
and: with both sources non-empty the output id set is exactly the union of
the input id sets minus — under the Weighted method only — the candidates
whose weighted score is below `min_score_threshold` (RRF applies no
threshold); with one source empty the shortcut path returns exactly that
source's candidates — the threshold is not applied there even under the
Weighted method. -/
theorem claim_C3_completeness_no_duplication
    (stdN : List ℚ → List ℚ) (setOrder : List String → List String) (pyHash : PyDict → Int)
    (q : String) (es vec : List PyDict) (config : HybridSearchConfig)
    (kIds vIds : List String) (kScores vDists : List ℚ)
    (hconf : HybridSearchConfig.post_init config = .ok config)
    (hkids : es.mapM (_extract_result_id pyHash) = .ok kIds)
    (hvids : vec.mapM (_extract_result_id pyHash) = .ok vIds)
    (hks : es.mapM _extract_es_score = .ok kScores)
    (hvd : vec.mapM _extract_vector_distance = .ok vDists)
    (hknd : kIds.Nodup) (hvnd : vIds.Nodup)
    (hstd : ∀ l, (stdN l).length = l.length)
    (hord : ∀ l : List String, (setOrder l).Perm l)
    (hid : ∀ d ∈ es ++ vec, hasIdKey d = true)
    (hcap : config.max_results = Option.none) :
    (es = [] → vec = [] → hybrid_search stdN setOrder pyHash q es vec (some config) = .ok []) ∧
    (es ≠ [] → vec ≠ [] → ∃ out,
      hybrid_search stdN setOrder pyHash q es vec (some config) = .ok out ∧
      (out.map Fused.rid).Nodup ∧
      (∀ i, some i ∈ out.map Fused.rid ↔ i ∈ kIds ++ vIds ∧
        (config.method = .weighted →
          config.min_score_threshold ≤ specWeightedScore stdN config kIds kScores vIds vDists i))) ∧
    (es = [] → vec ≠ [] → ∃ out,
      hybrid_search stdN setOrder pyHash q es vec (some config) = .ok out ∧
      (out.map (fun e => _extract_result_id pyHash e.data)).Perm (vIds.map Except.ok)) ∧
    (es ≠ [] → vec = [] → ∃ out,
      hybrid_search stdN setOrder pyHash q es vec (some config) = .ok out ∧
      (out.map (fun e => _extract_result_id pyHash e.data)).Perm (kIds.map Except.ok)) := by
  refine ⟨?_, ?_, ?_, ?_⟩
  · rintro rfl rfl
    rfl
  · intro hes hvec
    rcases hmcase : config.method with _ | _
    · rw [hybrid_search_dispatch_weighted stdN setOrder pyHash q es vec config hes hvec hmcase]
      rcases rank_weighted_out stdN setOrder pyHash es vec config kIds vIds kScores vDists
        hkids hvids hks hvd hknd hvnd hstd hord hes hvec with ⟨out, hout, _, hnd, _, hmem⟩
      refine ⟨out, hout, hnd, ?_⟩
      intro i
      rw [hmem hcap i]
      constructor
      · rintro ⟨h1, h2⟩
        exact ⟨h1, fun _ => h2⟩
      · rintro ⟨h1, h2⟩
        exact ⟨h1, h2 rfl⟩
    · rw [hybrid_search_dispatch_rrf stdN setOrder pyHash q es vec config hes hvec hmcase]
      rcases rank_rrf_out pyHash es vec config kIds vIds hkids hvids hknd hvnd with
        ⟨out, hout, _, hnd, hmem⟩
      refine ⟨out, hout, hnd, ?_⟩
      intro i
      rw [hmem hcap i]
      constructor
      · intro h1
        refine ⟨h1, ?_⟩
        intro hw
        cases hw
      · rintro ⟨h1, _⟩
        exact h1
  · rintro rfl hvec
    rw [mapM_nil_ok] at hkids
    exact vec_only_out_ids stdN setOrder pyHash q vec config vDists vIds hvec hvd hvids
      (fun d hd => hid d (List.mem_append.mpr (Or.inr hd))) hcap
  · intro hes hvecnil
    subst hvecnil
    rw [mapM_nil_ok] at hvids
    exact es_only_out_ids stdN setOrder pyHash q es config kScores kIds hes hks hkids
      (fun d hd => hid d (List.mem_append.mpr (Or.inl hd))) hcap

/-- C3 counterexamples as stated: (a) with a valid config whose
`max_results = 1`, the output id set is `{d}`, not the union `{a,b,c,d}` —
`a` clears the threshold (0.0) yet is absent; (b) with one source empty and
a Weighted config with `min_score_threshold = 0.9`, a candidate with
hybrid_score 0 < 0.9 is still returned — the shortcut never applies the
threshold. -/
theorem claim_C3_counterexample :
    ((hybrid_search stdId ordId hashZero "q" esW vecW (some cfgCap1)).map
        (fun l => l.map Fused.rid) = .ok [some "d"]) ∧
    (esW.mapM (_extract_result_id hashZero) = .ok ["a", "b"]) ∧
    (vecW.mapM (_extract_result_id hashZero) = .ok ["c", "d"]) ∧
    ((some "a" : Option String) ∉ [some "d"]) ∧
    ((hybrid_search stdId ordId hashZero "q" [] vecW (some cfgThr09)).map
        (fun l => l.map (fun e => (e.rid, e.score))) =
      .ok [((Option.none : Option String), (1 : ℚ)), (Option.none, 0)]) ∧
    cfgThr09.method = .weighted ∧
    ¬ (cfgThr09.min_score_threshold ≤ (0 : ℚ)) := by
  refine ⟨by decide, by decide, by decide, by decide, by decide, rfl, by decide⟩

/-- C3 witness: the amended theorem applied to a concrete run. -/
theorem claim_C3_completeness_no_duplication_witness :
    (esW = [] → vecW = [] →
      hybrid_search stdId ordId hashZero "q" esW vecW (some {}) = .ok []) ∧
    (esW ≠ [] → vecW ≠ [] → ∃ out,
      hybrid_search stdId ordId hashZero "q" esW vecW (some {}) = .ok out ∧
      (out.map Fused.rid).Nodup ∧
      (∀ i, some i ∈ out.map Fused.rid ↔ i ∈ ["a", "b"] ++ ["c", "d"] ∧
        ((HybridSearchConfig.method {}) = .weighted →
          (HybridSearchConfig.min_score_threshold {}) ≤
            specWeightedScore stdId {} ["a", "b"] [mkRat 1 1, mkRat 2 1]
              ["c", "d"] [mkRat 1 2, mkRat 2 5] i))) ∧
    (esW = [] → vecW ≠ [] → ∃ out,
      hybrid_search stdId ordId hashZero "q" esW vecW (some {}) = .ok out ∧
      (out.map (fun e => _extract_result_id hashZero e.data)).Perm
        (["c", "d"].map Except.ok)) ∧
    (esW ≠ [] → vecW = [] → ∃ out,
      hybrid_search stdId ordId hashZero "q" esW vecW (some {}) = .ok out ∧
      (out.map (fun e => _extract_result_id hashZero e.data)).Perm
        (["a", "b"].map Except.ok)) :=
  claim_C3_completeness_no_duplication stdId ordId hashZero "q" esW vecW {}
    ["a", "b"] ["c", "d"] [mkRat 1 1, mkRat 2 1] [mkRat 1 2, mkRat 2 5]
    (by decide) (by decide) (by decide) (by decide) (by decide) (by decide) (by decide)
    (fun _ => rfl) (fun l => List.Perm.refl l) (by decide) rfl

/-! ### Claim C4 — tie-break order (code bug) -/

/-- C4 exhibit: `_rank_weighted` iterates a Python `set` of ids, whose order
is hash-seed dependent.  Holding inputs and config fixed (keyword a: 1.0,
b: 2.0; vector c: 0.5, d: 0.4; default config — candidates `a` and `c` tie
at hybrid_score 0), two admissible set-iteration orders (identity and
reversal, both permutations) give outputs that differ in the order of the
tied pair, and the reversed order violates the keyword-before-semantic
first-encounter rule: the output is *not* a function of inputs and config
alone. -/
theorem claim_C4_tie_break_not_deterministic :
    ((hybrid_search stdId ordId hashZero "q" esW vecW Option.none).map
        (fun l => l.map (fun e => (e.rid, e.score))) =
      .ok [(some "d", mkRat 7 10), (some "b", mkRat 3 10), (some "a", 0), (some "c", 0)]) ∧
    ((hybrid_search stdId ordRev hashZero "q" esW vecW Option.none).map
        (fun l => l.map (fun e => (e.rid, e.score))) =
      .ok [(some "d", mkRat 7 10), (some "b", mkRat 3 10), (some "c", 0), (some "a", 0)]) ∧
    (∀ l : List String, (ordRev l).Perm l) ∧
    (hybrid_search stdId ordId hashZero "q" esW vecW Option.none ≠
      hybrid_search stdId ordRev hashZero "q" esW vecW Option.none) := by
  refine ⟨by decide, by decide, fun l => List.reverse_perm l, ?_⟩
  intro heq
  have h1 : (hybrid_search stdId ordId hashZero "q" esW vecW Option.none).map
      (fun l => l.map Fused.rid) = .ok [some "d", some "b", some "a", some "c"] := by decide
  rw [heq] at h1
  have h2 : (hybrid_search stdId ordRev hashZero "q" esW vecW Option.none).map
      (fun l => l.map Fused.rid) = .ok [some "d", some "b", some "c", some "a"] := by decide
  rw [h2] at h1
  exact absurd h1 (by decide)

/-! ### Claim C5 — empty-input laws -/

theorem zip_map_snd {α β : Type} :
    ∀ (xs : List α) (ys : List β), xs.length = ys.length →
      (xs.zip ys).map (fun p => p.2) = ys := by
  intro xs
  induction xs with
  | nil =>
    intro ys hlen
    cases ys with
    | nil => rfl
    | cons y ys' => cases hlen
  | cons x xs' ih =>
    intro ys hlen
    cases ys with
    | nil => cases hlen
    | cons y ys' =>
      rw [List.zip_cons_cons, List.map_cons, ih ys' (by simpa using hlen)]

/-- C5, amended: `fuse(q, [], [])` is `[]` without error; `fuse(q, [], V)`
(no result cap — truncation to `max_results`, which the original claim
omits, otherwise shortens the output) returns exactly V's candidates with
`hybrid_score` the MinMax-normalized similarities of V, sorted descending,
`es_norm_score = 0.0` everywhere, and the configured weights never applied
(the scores do not depend on them); `fuse(q, L, [])` is symmetric with
`vector_norm_score = 0.0`. -/
theorem claim_C5_empty_input_laws
    (stdN : List ℚ → List ℚ) (setOrder : List String → List String) (pyHash : PyDict → Int)
    (q : String) (es vec : List PyDict) (config : HybridSearchConfig)
    (kScores vDists : List ℚ)
    (hconf : HybridSearchConfig.post_init config = .ok config)
    (hcap : config.max_results = Option.none) :
    (hybrid_search stdN setOrder pyHash q [] [] (some config) = .ok []) ∧
    (vec ≠ [] → vec.mapM _extract_vector_distance = .ok vDists → ∃ out,
      hybrid_search stdN setOrder pyHash q [] vec (some config) = .ok out ∧
      (out.map Fused.score).Perm (_normalize_scores_minmax (vDists.map simOf)) ∧
      out.Pairwise (fun a b => b.score ≤ a.score) ∧
      (∀ e ∈ out, getNormScore e.data "es_norm_score" = 0 ∧
        getNormScore e.data "hybrid_score" = e.score)) ∧
    (es ≠ [] → es.mapM _extract_es_score = .ok kScores → ∃ out,
      hybrid_search stdN setOrder pyHash q es [] (some config) = .ok out ∧
      (out.map Fused.score).Perm (_normalize_scores_minmax kScores) ∧
      out.Pairwise (fun a b => b.score ≤ a.score) ∧
      (∀ e ∈ out, getNormScore e.data "vector_norm_score" = 0 ∧
        getNormScore e.data "hybrid_score" = e.score)) := by
  refine ⟨rfl, ?_, ?_⟩
  · intro hvec hvd
    have hlen : vec.length = (_normalize_scores_minmax (vDists.map simOf)).length := by
      rw [minmax_length, List.length_map, mapM_ok_length _ vec vDists hvd]
    rw [hybrid_search_vec_only stdN setOrder pyHash q vec config vDists hvec hvd,
      applyMaxResults_none config hcap]
    refine ⟨_, rfl, ?_, sortByScoreDesc_pairwise _, ?_⟩
    · refine List.Perm.trans ((sortByScoreDesc_perm _).map _) ?_
      rw [List.map_map]
      rw [show ((fun e => Fused.score e) ∘ fun rs : PyDict × ℚ =>
        (⟨Option.none, rs.2, assocSet (assocSet (assocSet rs.1 "hybrid_score" (.float rs.2))
          "vector_norm_score" (.float rs.2)) "es_norm_score" (.float 0)⟩ : Fused)) =
        (fun rs : PyDict × ℚ => rs.2) from rfl]
      rw [zip_map_snd vec _ hlen]
    · intro e he
      rw [mem_sortByScoreDesc] at he
      rcases List.mem_map.mp he with ⟨rs, _, rfl⟩
      constructor
      · exact getNormScore_assocSet_self _ _ _
      · rw [getNormScore,
          assocGet_assocSet_ne _ _ _ _ (show "hybrid_score" ≠ "es_norm_score" from by decide),
          assocGet_assocSet_ne _ _ _ _ (show "hybrid_score" ≠ "vector_norm_score" from by decide),
          assocGet_assocSet_self]
  · intro hes hks
    have hlen : es.length = (_normalize_scores_minmax kScores).length := by
      rw [minmax_length, mapM_ok_length _ es kScores hks]
    rw [hybrid_search_es_only stdN setOrder pyHash q es config kScores hes hks,
      applyMaxResults_none config hcap]
    refine ⟨_, rfl, ?_, sortByScoreDesc_pairwise _, ?_⟩
    · refine List.Perm.trans ((sortByScoreDesc_perm _).map _) ?_
      rw [List.map_map]
      rw [show ((fun e => Fused.score e) ∘ fun rs : PyDict × ℚ =>
        (⟨Option.none, rs.2, assocSet (assocSet (assocSet rs.1 "hybrid_score" (.float rs.2))
          "es_norm_score" (.float rs.2)) "vector_norm_score" (.float 0)⟩ : Fused)) =
        (fun rs : PyDict × ℚ => rs.2) from rfl]
      rw [zip_map_snd es _ hlen]
    · intro e he
      rw [mem_sortByScoreDesc] at he
      rcases List.mem_map.mp he with ⟨rs, _, rfl⟩
      constructor
      · exact getNormScore_assocSet_self _ _ _
      · rw [getNormScore,
          assocGet_assocSet_ne _ _ _ _ (show "hybrid_score" ≠ "vector_norm_score" from by decide),
          assocGet_assocSet_ne _ _ _ _ (show "hybrid_score" ≠ "es_norm_score" from by decide),
          assocGet_assocSet_self]

/-- C5 counterexample: with a valid config whose `max_results = 1`,
`fuse(q, [], V)` for the two-candidate `V` returns one candidate, so it does
not equal the full MinMax-normalized `V` sorted descending (length 2). -/
theorem claim_C5_counterexample :
    ((hybrid_search stdId ordId hashZero "q" [] vecW (some cfgCap1)).map
      (fun l => l.length) = .ok 1) ∧
    vecW.length = 2 ∧
    ¬ ((hybrid_search stdId ordId hashZero "q" [] vecW (some cfgCap1)).map
      (fun l => l.length) = .ok vecW.length) := by
  exact ⟨by decide, by decide, by decide⟩

/-- C5 witness: the amended theorem applied to concrete runs. -/
theorem claim_C5_empty_input_laws_witness :
    (hybrid_search stdId ordId hashZero "q" [] [] (some {}) = .ok []) ∧
    (vecW ≠ [] → vecW.mapM _extract_vector_distance = .ok [mkRat 1 2, mkRat 2 5] → ∃ out,
      hybrid_search stdId ordId hashZero "q" [] vecW (some {}) = .ok out ∧
      (out.map Fused.score).Perm
        (_normalize_scores_minmax ([mkRat 1 2, mkRat 2 5].map simOf)) ∧
      out.Pairwise (fun a b => b.score ≤ a.score) ∧
      (∀ e ∈ out, getNormScore e.data "es_norm_score" = 0 ∧
        getNormScore e.data "hybrid_score" = e.score)) ∧
    (esW ≠ [] → esW.mapM _extract_es_score = .ok [mkRat 1 1, mkRat 2 1] → ∃ out,
      hybrid_search stdId ordId hashZero "q" esW [] (some {}) = .ok out ∧
      (out.map Fused.score).Perm (_normalize_scores_minmax [mkRat 1 1, mkRat 2 1]) ∧
      out.Pairwise (fun a b => b.score ≤ a.score) ∧
      (∀ e ∈ out, getNormScore e.data "vector_norm_score" = 0 ∧
        getNormScore e.data "hybrid_score" = e.score)) :=
  claim_C5_empty_input_laws stdId ordId hashZero "q" esW vecW {}
    [mkRat 1 1, mkRat 2 1] [mkRat 1 2, mkRat 2 5] (by decide) rfl

/-! ### Claim C10 — single-source shortcut overrides the config -/

/-- C10: when exactly one input list is non-empty, the output of `fuse` is a
fixed list — independent of the standard normalizer, of set-iteration order,
and of every config field except `max_results` (so two configs agreeing on
`max_results` give identical output even if they disagree on method,
normalize_method and threshold) — whose scores are the MinMax-normalized
source scores and whose length before the `max_results` truncation equals
the full input length (no threshold drop). -/
theorem claim_C10_single_source_override
    (pyHash : PyDict → Int) (q : String) (es vec : List PyDict)
    (c1 c2 : HybridSearchConfig) (kScores vDists : List ℚ)
    (hagree : c1.max_results = c2.max_results) :
    (vec ≠ [] → vec.mapM _extract_vector_distance = .ok vDists →
      ∃ full : List Fused,
        (∀ (stdN : List ℚ → List ℚ) (setOrder : List String → List String),
          hybrid_search stdN setOrder pyHash q [] vec (some c1) =
            .ok (applyMaxResults c1 full)) ∧
        (∀ (stdN : List ℚ → List ℚ) (setOrder : List String → List String),
          hybrid_search stdN setOrder pyHash q [] vec (some c2) =
            .ok (applyMaxResults c1 full)) ∧
        (full.map Fused.score).Perm (_normalize_scores_minmax (vDists.map simOf)) ∧
        full.length = vec.length) ∧
    (es ≠ [] → es.mapM _extract_es_score = .ok kScores →
      ∃ full : List Fused,
        (∀ (stdN : List ℚ → List ℚ) (setOrder : List String → List String),
          hybrid_search stdN setOrder pyHash q es [] (some c1) =
            .ok (applyMaxResults c1 full)) ∧
        (∀ (stdN : List ℚ → List ℚ) (setOrder : List String → List String),
          hybrid_search stdN setOrder pyHash q es [] (some c2) =
            .ok (applyMaxResults c1 full)) ∧
        (full.map Fused.score).Perm (_normalize_scores_minmax kScores) ∧
        full.length = es.length) := by
  have hcap : ∀ l : List Fused, applyMaxResults c2 l = applyMaxResults c1 l := by
    intro l
    rw [applyMaxResults, applyMaxResults, hagree]
  constructor
  · intro hvec hvd
    have hlen : vec.length = (_normalize_scores_minmax (vDists.map simOf)).length := by
      rw [minmax_length, List.length_map, mapM_ok_length _ vec vDists hvd]
    refine ⟨_, fun stdN setOrder =>
      hybrid_search_vec_only stdN setOrder pyHash q vec c1 vDists hvec hvd,
      fun stdN setOrder => (hybrid_search_vec_only stdN setOrder pyHash q vec c2
        vDists hvec hvd).trans (by rw [hcap]), ?_, ?_⟩
    · refine List.Perm.trans ((sortByScoreDesc_perm _).map _) ?_
      rw [List.map_map]
      rw [show ((fun e => Fused.score e) ∘ fun rs : PyDict × ℚ =>
        (⟨Option.none, rs.2, assocSet (assocSet (assocSet rs.1 "hybrid_score" (.float rs.2))
          "vector_norm_score" (.float rs.2)) "es_norm_score" (.float 0)⟩ : Fused)) =
        (fun rs : PyDict × ℚ => rs.2) from rfl]
      rw [zip_map_snd vec _ hlen]
    · rw [(sortByScoreDesc_perm _).length_eq, List.length_map, List.length_zip, ← hlen,
        Nat.min_self]
  · intro hes hks
    have hlen : es.length = (_normalize_scores_minmax kScores).length := by
      rw [minmax_length, mapM_ok_length _ es kScores hks]
    refine ⟨_, fun stdN setOrder =>
      hybrid_search_es_only stdN setOrder pyHash q es c1 kScores hes hks,
      fun stdN setOrder => (hybrid_search_es_only stdN setOrder pyHash q es c2
        kScores hes hks).trans (by rw [hcap]), ?_, ?_⟩
    · refine List.Perm.trans ((sortByScoreDesc_perm _).map _) ?_
      rw [List.map_map]
      rw [show ((fun e => Fused.score e) ∘ fun rs : PyDict × ℚ =>
        (⟨Option.none, rs.2, assocSet (assocSet (assocSet rs.1 "hybrid_score" (.float rs.2))
          "es_norm_score" (.float rs.2)) "vector_norm_score" (.float 0)⟩ : Fused)) =
        (fun rs : PyDict × ℚ => rs.2) from rfl]
      rw [zip_map_snd es _ hlen]
    · rw [(sortByScoreDesc_perm _).length_eq, List.length_map, List.length_zip, ← hlen,
        Nat.min_self]

/-- C10 witness: the default config versus an RRF + z-score + 0.9-threshold
config on the concrete single-source inputs. -/
theorem claim_C10_single_source_override_witness :
    (vecW ≠ [] → vecW.mapM _extract_vector_distance = .ok [mkRat 1 2, mkRat 2 5] →
      ∃ full : List Fused,
        (∀ (stdN : List ℚ → List ℚ) (setOrder : List String → List String),
          hybrid_search stdN setOrder hashZero "q" [] vecW
            (some ({} : HybridSearchConfig)) = .ok (applyMaxResults {} full)) ∧
        (∀ (stdN : List ℚ → List ℚ) (setOrder : List String → List String),
          hybrid_search stdN setOrder hashZero "q" [] vecW (some cfgRrfStd) =
            .ok (applyMaxResults {} full)) ∧
        (full.map Fused.score).Perm
          (_normalize_scores_minmax ([mkRat 1 2, mkRat 2 5].map simOf)) ∧
        full.length = vecW.length) ∧
    (esW ≠ [] → esW.mapM _extract_es_score = .ok [mkRat 1 1, mkRat 2 1] →
      ∃ full : List Fused,
        (∀ (stdN : List ℚ → List ℚ) (setOrder : List String → List String),
          hybrid_search stdN setOrder hashZero "q" esW []
            (some ({} : HybridSearchConfig)) = .ok (applyMaxResults {} full)) ∧
        (∀ (stdN : List ℚ → List ℚ) (setOrder : List String → List String),
          hybrid_search stdN setOrder hashZero "q" esW [] (some cfgRrfStd) =
            .ok (applyMaxResults {} full)) ∧
        (full.map Fused.score).Perm (_normalize_scores_minmax [mkRat 1 1, mkRat 2 1]) ∧
        full.length = esW.length) :=
  claim_C10_single_source_override hashZero "q" esW vecW {} cfgRrfStd
    [mkRat 1 1, mkRat 2 1] [mkRat 1 2, mkRat 2 5] rfl

/-! ### Claim C7 — fuse and data content -/

theorem rank_weighted_total (stdN : List ℚ → List ℚ)
    (setOrder : List String → List String) (pyHash : PyDict → Int)
    (es vec : List PyDict) (config : HybridSearchConfig)
    (kIds vIds : List String) (kScores vDists : List ℚ)
    (hkids : es.mapM (_extract_result_id pyHash) = .ok kIds)
    (hvids : vec.mapM (_extract_result_id pyHash) = .ok vIds)
    (hks : es.mapM _extract_es_score = .ok kScores)
    (hvd : vec.mapM _extract_vector_distance = .ok vDists)
    (hes : es ≠ []) (hvec : vec ≠ []) :
    ∃ out, _rank_weighted stdN setOrder pyHash es vec config = .ok out := by
  have hesb : es.isEmpty = false := isEmpty_false_of_ne_nil hes
  have hvecb : vec.isEmpty = false := isEmpty_false_of_ne_nil hvec
  have hb1 := buildLookup_eq_pure pyHash "es_norm_score" es
    (normFn stdN config.normalize_method kScores) kIds [] hkids
  have hb2 := buildLookup_eq_pure pyHash "vector_norm_score" vec
    (normFn stdN config.normalize_method (vDists.map simOf)) vIds [] hvids
  rw [_rank_weighted]
  simp only [hesb, hvecb, Bool.false_eq_true, if_false, hks, hvd, except_ok_bind, hb1, hb2]
  exact ⟨_, rfl⟩

/-- C7, amended: `fuse` completes without raising for every pair of input
lists whose score/distance fields convert to float and whose id extraction
succeeds — which is guaranteed for candidates that have an id, and for
id-less candidates exactly when every attribute value is hashable, in which
case the content-derived fallback identifier `str(hash(frozenset(...)))` is
assigned and fusion proceeds.  (An id-less candidate carrying an unhashable
attribute value instead raises `TypeError` from `frozenset`, so the original
"never raises for arbitrary attribute values" is false.) -/
theorem claim_C7_never_raises (stdN : List ℚ → List ℚ)
    (setOrder : List String → List String) (pyHash : PyDict → Int) (q : String)
    (es vec : List PyDict) (kScores vDists : List ℚ) (kIds vIds : List String)
    (hks : es.mapM _extract_es_score = .ok kScores)
    (hvd : vec.mapM _extract_vector_distance = .ok vDists)
    (hkids : es.mapM (_extract_result_id pyHash) = .ok kIds)
    (hvids : vec.mapM (_extract_result_id pyHash) = .ok vIds) :
    (∀ config : HybridSearchConfig, ∃ out,
      hybrid_search stdN setOrder pyHash q es vec (some config) = .ok out) ∧
    (∀ d : PyDict, hasIdKey d = false → (d.all (fun kv => kv.2.hashable)) = true →
      _extract_result_id pyHash d = .ok (toString (pyHash d))) := by
  constructor
  · intro config
    by_cases hesn : es = []
    · by_cases hvecn : vec = []
      · subst hesn; subst hvecn
        exact ⟨[], rfl⟩
      · subst hesn
        exact ⟨_, hybrid_search_vec_only stdN setOrder pyHash q vec config vDists hvecn hvd⟩
    · by_cases hvecn : vec = []
      · subst hvecn
        exact ⟨_, hybrid_search_es_only stdN setOrder pyHash q es config kScores hesn hks⟩
      · cases hm : config.method with
        | weighted =>
          rw [hybrid_search_dispatch_weighted stdN setOrder pyHash q es vec config
            hesn hvecn hm]
          exact rank_weighted_total stdN setOrder pyHash es vec config kIds vIds
            kScores vDists hkids hvids hks hvd hesn hvecn
        | rrf =>
          rw [hybrid_search_dispatch_rrf stdN setOrder pyHash q es vec config
            hesn hvecn hm]
          exact ⟨_, rank_rrf_eq pyHash es vec config kIds vIds hkids hvids⟩
  · intro d hno hall
    rcases h1 : assocGet d "_id" with _ | v
    · rcases h2 : assocGet d "id" with _ | v
      · rw [_extract_result_id]
        simp only [h1, h2]
        rw [if_pos hall]
      · rw [hasIdKey, h1, h2] at hno
        simp at hno
    · rw [hasIdKey, h1] at hno
      simp at hno

/-- C7 counterexample: an id-less candidate whose only attribute value is a
(non-hashable) list makes `fuse` raise `TypeError` under the default config,
even though its score field is extractable. -/
theorem claim_C7_counterexample :
    (hybrid_search stdId ordId hashZero "q" esC7 vecC7 Option.none).map
      (fun l => l.length) = .error .typeError ∧
    hasIdKey (esC7.headD []) = false ∧
    ((esC7.headD []).all (fun kv => kv.2.hashable)) = false ∧
    esC7.mapM _extract_es_score = .ok [0] := by
  exact ⟨by decide, by decide, by decide, by decide⟩

/-- C7 witness: the amended theorem applied to the concrete two-by-two run. -/
theorem claim_C7_never_raises_witness :
    (∀ config : HybridSearchConfig, ∃ out,
      hybrid_search stdId ordId hashZero "q" esW vecW (some config) = .ok out) ∧
    (∀ d : PyDict, hasIdKey d = false → (d.all (fun kv => kv.2.hashable)) = true →
      _extract_result_id hashZero d = .ok (toString (hashZero d))) :=
  claim_C7_never_raises stdId ordId hashZero "q" esW vecW
    [mkRat 1 1, mkRat 2 1] [mkRat 1 2, mkRat 2 5] ["a", "b"] ["c", "d"]
    (by decide) (by decide) (by decide) (by decide)

/-! ### Claim C9 — monotonic weighting -/

theorem pairwise_desc_index_lt {l : List Fused}
    (hp : l.Pairwise (fun x y => y.score ≤ x.score))
    (i j : Fin l.length) (hs : (l.get j).score < (l.get i).score) : (i : ℕ) < (j : ℕ) := by
  rcases lt_trichotomy (i : ℕ) (j : ℕ) with h | h | h
  · exact h
  · rw [Fin.eq_of_val_eq h] at hs
    exact absurd hs (lt_irrefl _)
  · have hle := List.pairwise_iff_get.1 hp j i h
    exact absurd hs (not_lt.mpr hle)

/-- C9: with both weights tied by `keyword_weight = 1 - semantic_weight` and
a candidate `a` whose normalized semantic score beats `b`'s while its
normalized keyword score does not, raising `semantic_weight` strictly widens
the weighted-score gap of `a` over `b`; hence if `a` scored at least `b`
before, it scores strictly above `b` after — and in the fused output under
the larger weight `a` is positioned strictly before `b` — and at
`semantic_weight = 1` the gap is strictly positive outright. -/
theorem claim_C9_monotonic_weighting (stdN : List ℚ → List ℚ)
    (setOrder : List String → List String) (pyHash : PyDict → Int) (q : String)
    (es vec : List PyDict) (c1 c2 : HybridSearchConfig)
    (kIds vIds : List String) (kScores vDists : List ℚ) (a b : String)
    (hkids : es.mapM (_extract_result_id pyHash) = .ok kIds)
    (hvids : vec.mapM (_extract_result_id pyHash) = .ok vIds)
    (hks : es.mapM _extract_es_score = .ok kScores)
    (hvd : vec.mapM _extract_vector_distance = .ok vDists)
    (hknd : kIds.Nodup) (hvnd : vIds.Nodup)
    (hstd : ∀ l, (stdN l).length = l.length)
    (hord : ∀ l : List String, (setOrder l).Perm l)
    (hes : es ≠ []) (hvec : vec ≠ [])
    (hk1 : c1.keyword_weight = 1 - c1.semantic_weight)
    (hk2 : c2.keyword_weight = 1 - c2.semantic_weight)
    (hnm : c2.normalize_method = c1.normalize_method)
    (hm2 : c2.method = .weighted)
    (hw : c1.semantic_weight < c2.semantic_weight)
    (hsem : normScoreAt vIds (normFn stdN c1.normalize_method (vDists.map simOf)) b <
      normScoreAt vIds (normFn stdN c1.normalize_method (vDists.map simOf)) a)
    (hkey : normScoreAt kIds (normFn stdN c1.normalize_method kScores) a ≤
      normScoreAt kIds (normFn stdN c1.normalize_method kScores) b) :
    (specWeightedScore stdN c1 kIds kScores vIds vDists a -
        specWeightedScore stdN c1 kIds kScores vIds vDists b <
      specWeightedScore stdN c2 kIds kScores vIds vDists a -
        specWeightedScore stdN c2 kIds kScores vIds vDists b) ∧
    (specWeightedScore stdN c1 kIds kScores vIds vDists b ≤
        specWeightedScore stdN c1 kIds kScores vIds vDists a →
      specWeightedScore stdN c2 kIds kScores vIds vDists b <
        specWeightedScore stdN c2 kIds kScores vIds vDists a) ∧
    (∀ c3 : HybridSearchConfig, c3.semantic_weight = 1 → c3.keyword_weight = 0 →
      c3.normalize_method = c1.normalize_method →
      specWeightedScore stdN c3 kIds kScores vIds vDists b <
        specWeightedScore stdN c3 kIds kScores vIds vDists a) ∧
    (∃ out, hybrid_search stdN setOrder pyHash q es vec (some c2) = .ok out ∧
      ∀ (ia ib : Fin out.length),
        (out.get ia).rid = some a → (out.get ib).rid = some b →
        specWeightedScore stdN c1 kIds kScores vIds vDists b ≤
          specWeightedScore stdN c1 kIds kScores vIds vDists a →
        (ia : ℕ) < (ib : ℕ)) := by
  have hgap : specWeightedScore stdN c1 kIds kScores vIds vDists a -
      specWeightedScore stdN c1 kIds kScores vIds vDists b <
      specWeightedScore stdN c2 kIds kScores vIds vDists a -
        specWeightedScore stdN c2 kIds kScores vIds vDists b := by
    rw [specWeightedScore, specWeightedScore, specWeightedScore, specWeightedScore,
      hk1, hk2, hnm]
    nlinarith [mul_pos (sub_pos.mpr hw) (sub_pos.mpr (by linarith :
      normScoreAt vIds (normFn stdN c1.normalize_method (vDists.map simOf)) b +
        normScoreAt kIds (normFn stdN c1.normalize_method kScores) a <
      normScoreAt vIds (normFn stdN c1.normalize_method (vDists.map simOf)) a +
        normScoreAt kIds (normFn stdN c1.normalize_method kScores) b))]
  refine ⟨hgap, fun hge => by linarith, ?_, ?_⟩
  · intro c3 h1 h0 hnm3
    rw [specWeightedScore, specWeightedScore, h1, h0, hnm3]
    linarith
  · rcases rank_weighted_out stdN setOrder pyHash es vec c2 kIds vIds kScores vDists
      hkids hvids hks hvd hknd hvnd hstd hord hes hvec with
      ⟨out, hout, hbullet, hnodup, hpair, hcomplete⟩
    refine ⟨out, ?_, ?_⟩
    · rw [hybrid_search_dispatch_weighted stdN setOrder pyHash q es vec c2 hes hvec hm2]
      exact hout
    · intro ia ib hrida hridb hge
      rcases hbullet (out.get ia) (out.get_mem _ _) with ⟨i, hi, _, hsi⟩
      rcases hbullet (out.get ib) (out.get_mem _ _) with ⟨j, hj, _, hsj⟩
      have hia' : i = a := Option.some.inj (hi.symm.trans hrida)
      have hib' : j = b := Option.some.inj (hj.symm.trans hridb)
      subst hia'
      subst hib'
      have hlt : (out.get ib).score < (out.get ia).score := by
        rw [hsi, hsj]
        linarith
      exact pairwise_desc_index_lt hpair ia ib hlt

/-- C9 witness: equal weights (0.5/0.5) versus the default 0.7/0.3 on the
shared-id inputs, where `a` dominates semantically and `b` lexically. -/
theorem claim_C9_monotonic_weighting_witness :
    (specWeightedScore stdId cfgHalf ["a", "b"] [mkRat 1 1, mkRat 2 1] ["a", "b"]
        [mkRat 1 10, mkRat 3 10] "a" -
      specWeightedScore stdId cfgHalf ["a", "b"] [mkRat 1 1, mkRat 2 1] ["a", "b"]
        [mkRat 1 10, mkRat 3 10] "b" <
    specWeightedScore stdId {} ["a", "b"] [mkRat 1 1, mkRat 2 1] ["a", "b"]
        [mkRat 1 10, mkRat 3 10] "a" -
      specWeightedScore stdId {} ["a", "b"] [mkRat 1 1, mkRat 2 1] ["a", "b"]
        [mkRat 1 10, mkRat 3 10] "b") ∧
    (specWeightedScore stdId cfgHalf ["a", "b"] [mkRat 1 1, mkRat 2 1] ["a", "b"]
        [mkRat 1 10, mkRat 3 10] "b" ≤
      specWeightedScore stdId cfgHalf ["a", "b"] [mkRat 1 1, mkRat 2 1] ["a", "b"]
        [mkRat 1 10, mkRat 3 10] "a" →
      specWeightedScore stdId {} ["a", "b"] [mkRat 1 1, mkRat 2 1] ["a", "b"]
        [mkRat 1 10, mkRat 3 10] "b" <
      specWeightedScore stdId {} ["a", "b"] [mkRat 1 1, mkRat 2 1] ["a", "b"]
        [mkRat 1 10, mkRat 3 10] "a") ∧
    (∀ c3 : HybridSearchConfig, c3.semantic_weight = 1 → c3.keyword_weight = 0 →
      c3.normalize_method = cfgHalf.normalize_method →
      specWeightedScore stdId c3 ["a", "b"] [mkRat 1 1, mkRat 2 1] ["a", "b"]
        [mkRat 1 10, mkRat 3 10] "b" <
      specWeightedScore stdId c3 ["a", "b"] [mkRat 1 1, mkRat 2 1] ["a", "b"]
        [mkRat 1 10, mkRat 3 10] "a") ∧
    (∃ out, hybrid_search stdId ordId hashZero "q" esM vecM (some {}) = .ok out ∧
      ∀ (ia ib : Fin out.length),
        (out.get ia).rid = some "a" → (out.get ib).rid = some "b" →
        specWeightedScore stdId cfgHalf ["a", "b"] [mkRat 1 1, mkRat 2 1] ["a", "b"]
          [mkRat 1 10, mkRat 3 10] "b" ≤
        specWeightedScore stdId cfgHalf ["a", "b"] [mkRat 1 1, mkRat 2 1] ["a", "b"]
          [mkRat 1 10, mkRat 3 10] "a" →
        (ia : ℕ) < (ib : ℕ)) :=
  claim_C9_monotonic_weighting stdId ordId hashZero "q" esM vecM cfgHalf {}
    ["a", "b"] ["a", "b"] [mkRat 1 1, mkRat 2 1] [mkRat 1 10, mkRat 3 10] "a" "b"
    (by decide) (by decide) (by decide) (by decide) (by decide) (by decide)
    (fun l => rfl) (fun l => List.Perm.refl l)
    (List.cons_ne_nil _ _) (List.cons_ne_nil _ _)
    (by show mkRat 1 2 = 1 - mkRat 1 2
        rw [mkRat_cast_div]
        norm_num)
    (by show mkRat 3 10 = 1 - mkRat 7 10
        rw [mkRat_cast_div, mkRat_cast_div]
        norm_num)
    rfl rfl (by decide) (by decide) (by decide)
